import Mathlib

/-!
Verification development for the clean-briefing news pipeline
(source: newsfeed10_clean_briefing.py).

The Python text pipeline is shallowly embedded: strings are `String`
(lists of characters), machine floats for similarity scores are modelled
as exact rationals, Python `Counter` objects are association lists that
preserve insertion order, and the partial paragraph construction
(list indexing that can raise IndexError) is modelled with `Option`.
-/

namespace Briefing

/-- Model of the character class matched by the regex escape backslash-s
(ASCII whitespace as used by the Python patterns). -/
def isWS (c : Char) : Bool :=
  c.toNat = 32 || c.toNat = 9 || c.toNat = 10 || c.toNat = 13 || c.toNat = 11 || c.toNat = 12

/-- Model of Python str.lower on a single character (ASCII case fold). -/
def lowerChar (c : Char) : Char :=
  if 65 ≤ c.toNat ∧ c.toNat ≤ 90 then Char.ofNat (c.toNat + 32) else c

/-- Characters kept by the regex character class [a-z0-9 backslash-s -]:
lowercase letters, digits, whitespace and the hyphen. -/
def isAllowed (c : Char) : Bool :=
  (97 ≤ c.toNat && c.toNat ≤ 122) || (48 ≤ c.toNat && c.toNat ≤ 57) || isWS c || c.toNat = 45

/-- Step (d) of normalize: each character outside the allowed class becomes a space. -/
def charFilter (l : List Char) : List Char :=
  l.map (fun c => if isAllowed c then c else ' ')

/-- The characters of the literal scheme https:// . -/
def schemeS : List Char := ['h', 't', 't', 'p', 's', ':', '/', '/']

/-- The characters of the literal scheme http:// . -/
def schemeP : List Char := ['h', 't', 't', 'p', ':', '/', '/']

/-- Match the scheme part of the regex https?:// at the head of the list,
returning the remainder after the scheme.  The greedy optional s is resolved
by trying the longer literal first, which matches the backtracking behaviour
of the regex engine. -/
def afterScheme (l : List Char) : Option (List Char) :=
  if l.take 8 = schemeS then some (l.drop 8)
  else if l.take 7 = schemeP then some (l.drop 7)
  else none

/-- Match the regex https?://S+ (S+ being one or more non-whitespace characters)
at the head of the list; on success return what follows the whole match. -/
def matchUrl (l : List Char) : Option (List Char) :=
  match afterScheme l with
  | none => none
  | some r =>
    if (r.takeWhile (fun c => !isWS c)).isEmpty then none
    else some (r.dropWhile (fun c => !isWS c))

/-- Fuelled scanner for re.sub of the URL pattern with a single space. -/
def stripUrlsF : Nat → List Char → List Char
  | _, [] => []
  | 0, l => l
  | fuel+1, c :: rest =>
    match matchUrl (c :: rest) with
    | some a => ' ' :: stripUrlsF fuel a
    | none => c :: stripUrlsF fuel rest

/-- re.sub(https?://S+, " ", text): every URL-like run is replaced by one space. -/
def stripUrls (l : List Char) : List Char := stripUrlsF l.length l

/-- Scan to just past the first closing parenthesis, as the regex
open-paren [^)]* close-paren does. -/
def dropParen : List Char → Option (List Char)
  | [] => none
  | c :: rest => if c = ')' then some rest else dropParen rest

/-- Fuelled scanner for re.sub of the parenthetical pattern with a single space. -/
def stripParensF : Nat → List Char → List Char
  | _, [] => []
  | 0, l => l
  | fuel+1, c :: rest =>
    if c = '(' then
      match dropParen rest with
      | some a => ' ' :: stripParensF fuel a
      | none => c :: stripParensF fuel rest
    else c :: stripParensF fuel rest

/-- re.sub of a parenthetical span (no nesting, char class excludes the closer)
with a single space. -/
def stripParens (l : List Char) : List Char := stripParensF l.length l

/-- re.sub of one-or-more whitespace with a single space: every maximal
whitespace run collapses to one space character. -/
def collapseWS : List Char → List Char
  | [] => []
  | [c] => if isWS c then [' '] else [c]
  | c :: d :: rest =>
    if isWS c && isWS d then collapseWS (d :: rest)
    else (if isWS c then ' ' else c) :: collapseWS (d :: rest)

/-- Python str.strip: remove leading and trailing whitespace. -/
def trimWS (l : List Char) : List Char :=
  ((l.dropWhile isWS).reverse.dropWhile isWS).reverse

/-- Step (e) of normalize: collapse whitespace runs, then strip the ends. -/
def cleanupWS (l : List Char) : List Char := trimWS (collapseWS l)

/-- The normalize pipeline on character lists: lowercase, strip URLs,
strip parentheticals, replace disallowed characters by spaces, then
collapse and trim whitespace. -/
def normalizeL (l : List Char) : List Char :=
  cleanupWS (charFilter (stripParens (stripUrls (l.map lowerChar))))

/-- normalize(text) from the source. -/
def normalize (s : String) : String := ⟨normalizeL s.data⟩

/-- Fuelled model of Python str.split() with no argument: maximal
non-whitespace runs, empty chunks discarded. -/
def splitWordsF : Nat → List Char → List (List Char)
  | _, [] => []
  | 0, _ => []
  | fuel+1, c :: rest =>
    if isWS c then splitWordsF fuel rest
    else ((c :: rest).takeWhile (fun x => !isWS x)) ::
      splitWordsF fuel ((c :: rest).dropWhile (fun x => !isWS x))

/-- Python str.split() with no argument. -/
def splitWords (l : List Char) : List (List Char) := splitWordsF l.length l

/-- Join chunks with single spaces (used to reason about collapse-and-trim). -/
def joinWords : List (List Char) → List Char
  | [] => []
  | [w] => w
  | w :: ws => w ++ ' ' :: joinWords ws

/-- The STOP set of the source, as a list. -/
def STOP : List String :=
  ["a", "an", "the", "and", "or", "but", "if", "then", "than", "so", "to", "of", "in",
   "on", "for", "with", "from", "by", "at", "as", "is", "are", "was", "were", "be",
   "been", "being", "this", "that", "these", "those", "it", "its", "into", "over",
   "under", "about", "across", "after", "before", "during", "between", "also", "not",
   "no", "can", "could", "would", "should", "may", "might", "will", "just", "more",
   "most", "much", "very", "per", "via"]

/-- Python str.isdigit on the ASCII fragment: nonempty and all digits. -/
def pyIsDigit (s : String) : Bool :=
  !s.data.isEmpty && s.data.all (fun c => 48 ≤ c.toNat && c.toNat ≤ 57)

/-- The token filter of tokenize: not a stop word, longer than 2, not all digits. -/
def keepToken (w : String) : Bool :=
  !STOP.contains w && decide (2 < w.length) && !pyIsDigit w

/-- tokenize(text): split the normalized text on whitespace and filter. -/
def tokenize (text : String) : List String :=
  ((splitWords (normalize text).data).map (fun w => (⟨w⟩ : String))).filter keepToken

/-- The SPORTS lexicon of the source, as a Python set. -/
def SPORTS : Finset String :=
  (["nba", "nfl", "nhl", "mlb", "match", "game", "games", "season", "playoff",
    "all-star", "dunk", "overtime", "quarter", "finals", "championship", "wrestle",
    "wrestling", "division", "scoreboard", "wildcats", "lakers"] : List String).toFinset

/-- The LIFESTYLE_LOCAL lexicon of the source. -/
def LIFESTYLE_LOCAL : Finset String :=
  (["wedding", "weddings", "horoscope", "crossword", "recipe", "recipes", "dining",
    "travel", "scenic", "waterfall", "park", "town", "county", "local", "citizen",
    "newsletter", "obituaries", "health", "scores"] : List String).toFinset

/-- The FINANCE_TICKER lexicon of the source. -/
def FINANCE_TICKER : Finset String :=
  (["nyse", "nasdaq", "etf", "stock", "stocks", "shares", "bond", "bonds", "yield",
    "earnings", "ticker", "short", "interest", "price", "target"] : List String).toFinset

/-- is_low_signal(title, desc): tokenize the space-joined concatenation into a
set and test lexicon overlaps with thresholds 2, 2, 3. -/
def is_low_signal (title desc : String) : Bool :=
  let ws : Finset String := (tokenize (title ++ " " ++ desc)).toFinset
  if 2 ≤ (ws ∩ SPORTS).card then true
  else if 2 ≤ (ws ∩ LIFESTYLE_LOCAL).card then true
  else if 3 ≤ (ws ∩ FINANCE_TICKER).card then true
  else false

/-- jaccard(a, b): set Jaccard similarity, 0 when either set is empty.
The quotient of the two cardinalities is taken as an exact rational; the
source guards the denominator with `or 1`, which is unreachable because the
union is nonempty in the remaining branch. -/
def jaccard (a b : List String) : Rat :=
  let A := a.toFinset
  let B := b.toFinset
  if A = ∅ ∨ B = ∅ then 0 else mkRat ((A ∩ B).card) ((A ∪ B).card)

/-- One input record: the title and description fields consumed by the core
(missing fields are modelled as empty strings, as the source's r.get does). -/
structure Row where
  title : String
  description : String
deriving DecidableEq, Inhabited

/-- A storyline cluster: member rows in insertion order and the accumulated
Counter of title tokens, modelled as an association list in insertion order. -/
structure Cluster where
  rows : List Row
  tok_counts : List (String × Nat)
deriving DecidableEq, Inhabited

/-- Counter lookup counts.get(w, 0). -/
def countOf (tf : List (String × Nat)) (w : String) : Nat :=
  match tf with
  | [] => 0
  | (k, n) :: rest => if k = w then n else countOf rest w

/-- Add one occurrence of a token to a Counter: increment in place if the key
exists, otherwise append it with count 1 (Python dicts keep insertion order). -/
def bump (tf : List (String × Nat)) (w : String) : List (String × Nat) :=
  match tf with
  | [] => [(w, 1)]
  | (k, n) :: rest => if k = w then (k, n + 1) :: rest else (k, n) :: bump rest w

/-- Counter.update(tks): fold bump over the tokens. -/
def updateCounts (tf : List (String × Nat)) (tks : List String) : List (String × Nat) :=
  tks.foldl bump tf

/-- Insert into a sorted list: place p before the first element q such that
le p q holds.  With a total preorder this is the stable insertion step. -/
def insSorted (le : α → α → Bool) (p : α) : List α → List α
  | [] => [p]
  | q :: rest => if le p q then p :: q :: rest else q :: insSorted le p rest

/-- Stable insertion sort; for a total preorder it agrees with the stable
sorts used by Python (sorted, list.sort, Counter.most_common). -/
def insSort (le : α → α → Bool) : List α → List α
  | [] => []
  | p :: rest => insSorted le p (insSort le rest)

/-- Order for Counter.most_common: descending count, ties keep insertion order. -/
def countLe (p q : String × Nat) : Bool := decide (q.2 ≤ p.2)

/-- The evolving centroid: the 25 most frequent tokens of the cluster. -/
def centroid (c : Cluster) : List String :=
  ((insSort countLe c.tok_counts).take 25).map (fun p => p.1)

/-- One iteration of the best-match scan: a strictly greater similarity
replaces the running best; the third component counts the index. -/
def bestStep (tks : List String) (acc : Option Nat × Rat × Nat) (c : Cluster) :
    Option Nat × Rat × Nat :=
  let sim := jaccard tks (centroid c)
  if acc.2.1 < sim then (some acc.2.2, sim, acc.2.2 + 1)
  else (acc.1, acc.2.1, acc.2.2 + 1)

/-- The best-match scan of cluster_titles: running strict-greater comparison
of similarities, so the earliest cluster attaining the maximum wins; the index
is None until some similarity exceeds 0. -/
def bestMatch (tks : List String) (cs : List Cluster) : Option Nat × Rat :=
  let st := cs.foldl (bestStep tks) (none, 0, 0)
  (st.1, st.2.1)

/-- Append a row to a cluster and merge its tokens into the Counter. -/
def grow (c : Cluster) (r : Row) (tks : List String) : Cluster :=
  ⟨c.rows ++ [r], updateCounts c.tok_counts tks⟩

/-- Replace the cluster at an index by its grown version (clusters[i] mutation). -/
def growAt : List Cluster → Nat → Row → List String → List Cluster
  | [], _, _, _ => []
  | c :: rest, 0, r, tks => grow c r tks :: rest
  | c :: rest, n + 1, r, tks => c :: growAt rest n r tks

/-- Python str.strip() on a string. -/
def pyStrip (s : String) : String := ⟨trimWS s.data⟩

/-- One iteration of the cluster_titles loop: skip rows with blank or
untokenizable titles; join the best cluster when one was found and its
similarity reaches the threshold, else start a new singleton cluster. -/
def clusterStep (t : Rat) (cs : List Cluster) (r : Row) : List Cluster :=
  let title := pyStrip r.title
  if title.data.isEmpty then cs else
  let tks := tokenize title
  if tks.isEmpty then cs else
  let best := bestMatch tks cs
  if best.1.isSome && decide (t ≤ best.2) then growAt cs (best.1.getD 0) r tks
  else cs ++ [⟨[r], updateCounts [] tks⟩]

/-- The cluster list before the final sort, in creation order. -/
def preClusters (rows : List Row) (t : Rat) : List Cluster :=
  rows.foldl (clusterStep t) []

/-- Final sort of cluster_titles: by member count descending, stable. -/
def clusterLe (c d : Cluster) : Bool := decide (d.rows.length ≤ c.rows.length)

/-- cluster_titles(rows, sim_threshold): greedy single-pass clustering then
the stable size sort. -/
def cluster_titles (rows : List Row) (t : Rat) : List Cluster :=
  insSort clusterLe (preClusters rows t)

/-- The ordered TOPIC_LEXICON table of the source. -/
def TOPIC_LEXICON : List (String × List String) :=
  [("Geopolitics & security",
    ["war", "military", "nuclear", "sanctions", "border", "defense", "attack", "navy"]),
   ("Elections & governance",
    ["election", "vote", "parliament", "government", "president", "minister", "court",
     "policy"]),
   ("Economy & markets",
    ["inflation", "gdp", "economy", "bank", "interest", "rate", "currency", "trade",
     "jobs", "markets"]),
   ("Tech & AI",
    ["ai", "artificial", "chip", "cyber", "data", "software", "platform"]),
   ("Climate & disasters",
    ["climate", "flood", "storm", "drought", "wildfire", "earthquake"]),
   ("Public safety & crime",
    ["police", "arrest", "trial", "fraud", "shooting", "crime"])]

/-- A topic score: the sum of the Counter values of the marker words. -/
def topicScore (tf : List (String × Nat)) (words : List String) : Nat :=
  (words.map (countOf tf)).sum

/-- One iteration of the topic scan: a strictly greater score replaces the
running best topic. -/
def labelStep (tf : List (String × Nat)) (acc : Option String × Nat)
    (p : String × List String) : Option String × Nat :=
  let s := topicScore tf p.2
  if acc.2 < s then (some p.1, s) else acc

/-- label_cluster(cluster): strict-greater scan over the topic table starting
from score 0 and topic None; None at the end becomes "Other". -/
def label_cluster (c : Cluster) : String :=
  ((TOPIC_LEXICON.foldl (labelStep c.tok_counts) (none, 0)).1).getD "Other"

/-- Score of a member title against the cluster Counter. -/
def scoreTitle (tf : List (String × Nat)) (t : String) : Nat :=
  ((tokenize t).map (countOf tf)).sum

/-- The sort order of representative_title: key (-score, title length)
ascending, i.e. descending score then ascending length, stable. -/
def repLe (tf : List (String × Nat)) (a b : Row) : Bool :=
  decide (scoreTitle tf b.title < scoreTitle tf a.title ∨
    (scoreTitle tf a.title = scoreTitle tf b.title ∧ a.title.length ≤ b.title.length))

/-- representative_title(cluster): the best-scoring (shortest on ties) member
title.  The source indexes element 0 and would fail on an empty cluster, which
the cluster-formation invariant rules out; the model returns "" there. -/
def representative_title (c : Cluster) : String :=
  match insSort (repLe c.tok_counts) c.rows with
  | [] => ""
  | r :: _ => r.title

/-- The fixed sentinel for an empty input list. -/
def noHeadlinesMsg : String := "No headlines were available to summarize."

/-- The fixed sentinel for a corpus producing no clusters. -/
def insufficientMsg : String := "Insufficient signal to produce a coherent summary."

/-- The chosen-clusters loop: walk labelled clusters, keep the first cluster
of each unseen topic, stop once 3 are chosen. -/
def chooseAux : List (Cluster × String) → List (Cluster × String) → List String →
    List (Cluster × String)
  | [], chosen, _ => chosen
  | p :: rest, chosen, seen =>
    if seen.contains p.2 then
      if chosen.length = 3 then chosen else chooseAux rest chosen seen
    else
      if (chosen ++ [p]).length = 3 then chosen ++ [p]
      else chooseAux rest (chosen ++ [p]) (p.2 :: seen)

/-- Steps 4 to 7 of the assembler: label, choose up to 3 distinct-topic
clusters (falling back to the top 3 by size), format the lines and fill the
fixed template.  The source indexes lines[0], lines[1], lines[2]; an index
beyond the list raises IndexError, modelled here by none. -/
def assembleParagraph (clusters : List Cluster) : Option String :=
  if clusters.isEmpty then some insufficientMsg else
  let labeled := clusters.map (fun c => (c, label_cluster c))
  let chosen := chooseAux labeled [] []
  let chosen2 := if chosen.length < 3 then labeled.take 3 else chosen
  let lines := chosen2.map (fun p => p.2 ++ ": " ++ representative_title p.1)
  match lines.get? 0, lines.get? 1, lines.get? 2 with
  | some l0, some l1, some l2 =>
    some ("The current headlines point to several parallel developments. " ++
      l0 ++ ". " ++ l1 ++ ". " ++ l2 ++
      ". Taken together, the feed reflects a dispersed news cycle rather than a single dominant global event.")
  | _, _, _ => none

/-- build_clean_paragraph(rows): empty-input sentinel, advisory signal filter
with the 40-record floor, clustering at threshold 0.33 (the float literal is
modelled by the exact rational), then assembly. -/
def build_clean_paragraph (rows : List Row) : Option String :=
  if rows.isEmpty then some noHeadlinesMsg else
  let filtered := rows.filter (fun r => !is_low_signal r.title r.description)
  let corpus := if 40 ≤ filtered.length then filtered else rows
  assembleParagraph (cluster_titles corpus (mkRat 33 100))

/-- Modelled from the claim wording: the record joins the existing cluster of
highest centroid similarity (earliest on ties, strict-greater scan) exactly
when that best similarity reaches the threshold, and otherwise, or when no
cluster exists yet, starts a new singleton cluster. -/
def clusterStepSpec (t : Rat) (cs : List Cluster) (r : Row) : List Cluster :=
  let title := pyStrip r.title
  if title.data.isEmpty then cs else
  let tks := tokenize title
  if tks.isEmpty then cs else
  if cs.isEmpty then cs ++ [⟨[r], updateCounts [] tks⟩] else
  let best := bestMatch tks cs
  if t ≤ best.2 then growAt cs (best.1.getD 0) r tks
  else cs ++ [⟨[r], updateCounts [] tks⟩]

/-- The claim-side clustering function built from clusterStepSpec. -/
def clusterTitlesSpec (rows : List Row) (t : Rat) : List Cluster :=
  insSort clusterLe (rows.foldl (clusterStepSpec t) [])

/-! ### Unfolding equations for the fuelled scanners -/

theorem afterScheme_some_length {l r : List Char} (h : afterScheme l = some r) :
    r.length < l.length := by
  unfold afterScheme at h
  split at h
  · rename_i h8
    cases h
    have hl : 8 ≤ l.length := by
      have := congrArg List.length h8
      simp [schemeS] at this
      omega
    simp
    omega
  · split at h
    · rename_i h7
      cases h
      have hl : 7 ≤ l.length := by
        have := congrArg List.length h7
        simp [schemeP] at this
        omega
      simp
      omega
    · cases h

theorem afterScheme_some_colon {l r : List Char} (h : afterScheme l = some r) :
    (':' : Char) ∈ l := by
  unfold afterScheme at h
  split at h
  · rename_i h8
    have : (':' : Char) ∈ l.take 8 := by rw [h8]; decide
    exact List.take_subset _ _ this
  · split at h
    · rename_i h7
      have : (':' : Char) ∈ l.take 7 := by rw [h7]; decide
      exact List.take_subset _ _ this
    · cases h

theorem matchUrl_some_length {l a : List Char} (h : matchUrl l = some a) :
    a.length < l.length := by
  cases hA : afterScheme l with
  | none =>
    have hm : matchUrl l = none := by unfold matchUrl; rw [hA]
    rw [hm] at h
    cases h
  | some r =>
    have hm : matchUrl l = if (r.takeWhile fun c => !isWS c).isEmpty then none
        else some (r.dropWhile fun c => !isWS c) := by
      unfold matchUrl
      rw [hA]
    rw [hm] at h
    by_cases hb : (r.takeWhile fun c => !isWS c).isEmpty
    · rw [if_pos hb] at h; cases h
    · rw [if_neg hb] at h
      cases h
      calc (r.dropWhile fun c => !isWS c).length
          ≤ r.length := (List.dropWhile_sublist _).length_le
        _ < l.length := afterScheme_some_length hA

theorem matchUrl_some_colon {l a : List Char} (h : matchUrl l = some a) :
    (':' : Char) ∈ l := by
  unfold matchUrl at h
  cases hA : afterScheme l with
  | none => rw [hA] at h; cases h
  | some r => exact afterScheme_some_colon hA

theorem stripUrlsF_congr :
    ∀ (f₁ f₂ : Nat) (l : List Char), l.length ≤ f₁ → l.length ≤ f₂ →
      stripUrlsF f₁ l = stripUrlsF f₂ l := by
  intro f₁
  induction f₁ with
  | zero =>
    intro f₂ l h₁ _
    have : l = [] := List.length_eq_zero.mp (Nat.le_zero.mp h₁)
    subst this
    cases f₂ <;> rfl
  | succ f ih =>
    intro f₂ l h₁ h₂
    cases l with
    | nil => cases f₂ <;> rfl
    | cons c rest =>
      cases f₂ with
      | zero => simp at h₂
      | succ g =>
        show (match matchUrl (c :: rest) with
          | some a => ' ' :: stripUrlsF f a
          | none => c :: stripUrlsF f rest) = (match matchUrl (c :: rest) with
          | some a => ' ' :: stripUrlsF g a
          | none => c :: stripUrlsF g rest)
        cases hm : matchUrl (c :: rest) with
        | some a =>
          have hlen := matchUrl_some_length hm
          simp only []
          rw [ih g a (by simp at h₁ hlen ⊢; omega) (by simp at h₂ hlen ⊢; omega)]
        | none =>
          simp only []
          rw [ih g rest (by simp at h₁ ⊢; omega) (by simp at h₂ ⊢; omega)]

theorem stripUrls_cons (c : Char) (rest : List Char) :
    stripUrls (c :: rest) = (match matchUrl (c :: rest) with
      | some a => ' ' :: stripUrls a
      | none => c :: stripUrls rest) := by
  show stripUrlsF (c :: rest).length (c :: rest) = _
  have : (c :: rest).length = rest.length + 1 := rfl
  rw [this]
  show (match matchUrl (c :: rest) with
    | some a => ' ' :: stripUrlsF rest.length a
    | none => c :: stripUrlsF rest.length rest) = _
  cases hm : matchUrl (c :: rest) with
  | some a =>
    have hlen := matchUrl_some_length hm
    simp only []
    rw [stripUrlsF_congr rest.length a.length a (by simp at hlen; omega) (Nat.le_refl _)]
    rfl
  | none => rfl

theorem dropParen_some_length {l a : List Char} (h : dropParen l = some a) :
    a.length < l.length := by
  induction l with
  | nil => cases h
  | cons c rest ih =>
    unfold dropParen at h
    by_cases hc : c = ')'
    · rw [if_pos hc] at h
      cases h
      simp
    · rw [if_neg hc] at h
      have := ih h
      simp
      omega

theorem stripParensF_congr :
    ∀ (f₁ f₂ : Nat) (l : List Char), l.length ≤ f₁ → l.length ≤ f₂ →
      stripParensF f₁ l = stripParensF f₂ l := by
  intro f₁
  induction f₁ with
  | zero =>
    intro f₂ l h₁ _
    have : l = [] := List.length_eq_zero.mp (Nat.le_zero.mp h₁)
    subst this
    cases f₂ <;> rfl
  | succ f ih =>
    intro f₂ l h₁ h₂
    cases l with
    | nil => cases f₂ <;> rfl
    | cons c rest =>
      cases f₂ with
      | zero => simp at h₂
      | succ g =>
        show (if c = '(' then
            match dropParen rest with
            | some a => ' ' :: stripParensF f a
            | none => c :: stripParensF f rest
          else c :: stripParensF f rest) = (if c = '(' then
            match dropParen rest with
            | some a => ' ' :: stripParensF g a
            | none => c :: stripParensF g rest
          else c :: stripParensF g rest)
        by_cases hc : c = '('
        · simp only [if_pos hc]
          cases hd : dropParen rest with
          | some a =>
            have hlen := dropParen_some_length hd
            simp only []
            rw [ih g a (by simp at h₁ ⊢; omega) (by simp at h₂ ⊢; omega)]
          | none =>
            simp only []
            rw [ih g rest (by simp at h₁ ⊢; omega) (by simp at h₂ ⊢; omega)]
        · simp only [if_neg hc]
          rw [ih g rest (by simp at h₁ ⊢; omega) (by simp at h₂ ⊢; omega)]

theorem stripParens_cons (c : Char) (rest : List Char) :
    stripParens (c :: rest) = (if c = '(' then
      match dropParen rest with
      | some a => ' ' :: stripParens a
      | none => c :: stripParens rest
    else c :: stripParens rest) := by
  show stripParensF (rest.length + 1) (c :: rest) = _
  show (if c = '(' then
      match dropParen rest with
      | some a => ' ' :: stripParensF rest.length a
      | none => c :: stripParensF rest.length rest
    else c :: stripParensF rest.length rest) = _
  by_cases hc : c = '('
  · simp only [if_pos hc]
    cases hd : dropParen rest with
    | some a =>
      have hlen := dropParen_some_length hd
      simp only []
      rw [stripParensF_congr rest.length a.length a (by omega) (Nat.le_refl _)]
      rfl
    | none => rfl
  · simp only [if_neg hc]
    rfl

theorem splitWordsF_congr :
    ∀ (f₁ f₂ : Nat) (l : List Char), l.length ≤ f₁ → l.length ≤ f₂ →
      splitWordsF f₁ l = splitWordsF f₂ l := by
  intro f₁
  induction f₁ with
  | zero =>
    intro f₂ l h₁ _
    have : l = [] := List.length_eq_zero.mp (Nat.le_zero.mp h₁)
    subst this
    cases f₂ <;> rfl
  | succ f ih =>
    intro f₂ l h₁ h₂
    cases l with
    | nil => cases f₂ <;> rfl
    | cons c rest =>
      cases f₂ with
      | zero => simp at h₂
      | succ g =>
        show (if isWS c then splitWordsF f rest
          else ((c :: rest).takeWhile (fun x => !isWS x)) ::
            splitWordsF f ((c :: rest).dropWhile (fun x => !isWS x))) =
          (if isWS c then splitWordsF g rest
          else ((c :: rest).takeWhile (fun x => !isWS x)) ::
            splitWordsF g ((c :: rest).dropWhile (fun x => !isWS x)))
        by_cases hw : isWS c
        · simp only [if_pos hw]
          exact ih g rest (by simp at h₁ ⊢; omega) (by simp at h₂ ⊢; omega)
        · simp only [if_neg hw]
          have hdrop : ((c :: rest).dropWhile (fun x => !isWS x)).length ≤ rest.length := by
            rw [List.dropWhile_cons]
            simp [hw]
            exact (List.dropWhile_sublist _).length_le
          rw [ih g _ (by simp at h₁ ⊢; omega) (by simp at h₂ ⊢; omega)]

theorem splitWords_cons (c : Char) (rest : List Char) :
    splitWords (c :: rest) = (if isWS c then splitWords rest
      else ((c :: rest).takeWhile (fun x => !isWS x)) ::
        splitWords ((c :: rest).dropWhile (fun x => !isWS x))) := by
  show splitWordsF (rest.length + 1) (c :: rest) = _
  show (if isWS c then splitWordsF rest.length rest
    else ((c :: rest).takeWhile (fun x => !isWS x)) ::
      splitWordsF rest.length ((c :: rest).dropWhile (fun x => !isWS x))) = _
  by_cases hw : isWS c
  · simp only [if_pos hw]
    rfl
  · simp only [if_neg hw]
    have hdrop : ((c :: rest).dropWhile (fun x => !isWS x)).length ≤ rest.length := by
      rw [List.dropWhile_cons]
      simp [hw]
      exact (List.dropWhile_sublist _).length_le
    rw [splitWordsF_congr rest.length _ _ (by omega) (Nat.le_refl _)]
    rfl

/-! ### Interaction of the scanners with whitespace and appending -/

theorem ws_ne_h {c : Char} (hw : isWS c = true) : c ≠ 'h' := by
  intro he
  subst he
  exact absurd hw (by decide)

theorem ws_ne_lparen {c : Char} (hw : isWS c = true) : c ≠ '(' := by
  intro he
  subst he
  exact absurd hw (by decide)

theorem ws_ne_rparen {c : Char} (hw : isWS c = true) : c ≠ ')' := by
  intro he
  subst he
  exact absurd hw (by decide)

theorem matchUrl_cons_ne_h {c : Char} {rest : List Char} (hc : c ≠ 'h') :
    matchUrl (c :: rest) = none := by
  have h8 : (c :: rest).take 8 ≠ schemeS := by
    intro h
    rw [List.take_succ_cons] at h
    exact hc (List.head_eq_of_cons_eq h)
  have h7 : (c :: rest).take 7 ≠ schemeP := by
    intro h
    rw [List.take_succ_cons] at h
    exact hc (List.head_eq_of_cons_eq h)
  unfold matchUrl afterScheme
  rw [if_neg h8, if_neg h7]

theorem takeWhile_append_stop {p : Char → Bool} {r : List Char} {w : Char} {b : List Char}
    (hpw : p w = false) : (r ++ w :: b).takeWhile p = r.takeWhile p := by
  rw [List.takeWhile_append]
  split
  · rename_i hlen
    have : r.takeWhile p = r := (List.takeWhile_sublist p).eq_of_length hlen
    rw [List.takeWhile_cons, hpw]
    simp [this]
  · rfl

theorem dropWhile_append_stop {p : Char → Bool} {r : List Char} {w : Char} {b : List Char}
    (hpw : p w = false) : (r ++ w :: b).dropWhile p = r.dropWhile p ++ w :: b := by
  rw [List.dropWhile_append]
  split
  · rename_i hemp
    rw [List.isEmpty_iff] at hemp
    rw [hemp, List.dropWhile_cons, hpw]
    simp
  · rfl

theorem take_ne_pattern (pat : List Char) (n : Nat) {l : List Char} {w : Char} {b : List Char}
    (hw : isWS w = true) (hpat : ∀ c ∈ pat, isWS c = false)
    (hne : l.take n ≠ pat) : (l ++ w :: b).take n ≠ pat := by
  intro h
  by_cases hl : n ≤ l.length
  · rw [List.take_append_of_le_length hl] at h
    exact hne h
  · push_neg at hl
    rw [List.take_append_eq_append_take] at h
    have hwmem : w ∈ pat := by
      rw [← h]
      apply List.mem_append_right
      cases hkk : n - l.length with
      | zero => omega
      | succ k =>
        rw [List.take_succ_cons]
        exact List.mem_cons_self _ _
    rw [hpat w hwmem] at hw
    cases hw

theorem afterScheme_append {l : List Char} {w : Char} {b : List Char} (hw : isWS w = true) :
    afterScheme (l ++ w :: b) = Option.map (· ++ w :: b) (afterScheme l) := by
  unfold afterScheme
  by_cases h8 : l.take 8 = schemeS
  · have hl : 8 ≤ l.length := by
      have := congrArg List.length h8
      simp [schemeS] at this
      omega
    rw [if_pos (by rw [List.take_append_of_le_length hl]; exact h8), if_pos h8]
    rw [List.drop_append_of_le_length hl]
    rfl
  · rw [if_neg (take_ne_pattern schemeS 8 hw (by decide) h8), if_neg h8]
    by_cases h7 : l.take 7 = schemeP
    · have hl : 7 ≤ l.length := by
        have := congrArg List.length h7
        simp [schemeP] at this
        omega
      rw [if_pos (by rw [List.take_append_of_le_length hl]; exact h7), if_pos h7]
      rw [List.drop_append_of_le_length hl]
      rfl
    · rw [if_neg (take_ne_pattern schemeP 7 hw (by decide) h7), if_neg h7]
      rfl

theorem matchUrl_append {l : List Char} {w : Char} {b : List Char} (hw : isWS w = true) :
    matchUrl (l ++ w :: b) = Option.map (· ++ w :: b) (matchUrl l) := by
  have hnw : (!isWS w) = false := by rw [hw]; rfl
  cases hA : afterScheme l with
  | none =>
    have h1 : matchUrl l = none := by unfold matchUrl; rw [hA]
    have h2 : matchUrl (l ++ w :: b) = none := by
      unfold matchUrl
      rw [afterScheme_append hw, hA]
      rfl
    rw [h1, h2]
    rfl
  | some r =>
    have h1 : matchUrl l = if (r.takeWhile fun c => !isWS c).isEmpty then none
        else some (r.dropWhile fun c => !isWS c) := by
      unfold matchUrl
      rw [hA]
    have h2 : matchUrl (l ++ w :: b) =
        if ((r ++ w :: b).takeWhile fun c => !isWS c).isEmpty then none
        else some ((r ++ w :: b).dropWhile fun c => !isWS c) := by
      unfold matchUrl
      rw [afterScheme_append hw, hA]
      rfl
    rw [h1, h2, takeWhile_append_stop hnw, dropWhile_append_stop hnw]
    by_cases hb : (r.takeWhile fun c => !isWS c).isEmpty
    · rw [if_pos hb, if_pos hb]
      rfl
    · rw [if_neg hb, if_neg hb]
      rfl

theorem stripUrls_nil : stripUrls [] = [] := rfl

theorem stripUrls_append_ws {w : Char} {b : List Char} (hw : isWS w = true) (a : List Char) :
    stripUrls (a ++ w :: b) = stripUrls a ++ stripUrls (w :: b) := by
  suffices key : ∀ (n : Nat) (a : List Char), a.length ≤ n →
      stripUrls (a ++ w :: b) = stripUrls a ++ stripUrls (w :: b) from
    key a.length a (Nat.le_refl _)
  intro n
  induction n with
  | zero =>
    intro a ha
    have : a = [] := List.length_eq_zero.mp (Nat.le_zero.mp ha)
    subst this
    rw [List.nil_append, stripUrls_nil, List.nil_append]
  | succ n ih =>
    intro a ha
    cases a with
    | nil => rw [List.nil_append, stripUrls_nil, List.nil_append]
    | cons c rest =>
      rw [List.cons_append, stripUrls_cons,
        show c :: (rest ++ w :: b) = (c :: rest) ++ w :: b from rfl,
        matchUrl_append hw, stripUrls_cons]
      cases hm : matchUrl (c :: rest) with
      | some a' =>
        have hlt := matchUrl_some_length hm
        simp only [Option.map_some']
        rw [ih a' (by simp at hlt ha ⊢; omega)]
        rfl
      | none =>
        simp only [Option.map_none']
        rw [ih rest (by simp at ha; omega)]
        rfl

theorem stripUrls_allWS {ws : List Char} (h : ∀ c ∈ ws, isWS c = true) :
    stripUrls ws = ws := by
  induction ws with
  | nil => rfl
  | cons w rest ih =>
    rw [stripUrls_cons, matchUrl_cons_ne_h (ws_ne_h (h w (List.mem_cons_self _ _)))]
    rw [ih (fun c hc => h c (List.mem_cons_of_mem _ hc))]

theorem stripUrls_ws_front {ws l : List Char} (h : ∀ c ∈ ws, isWS c = true) :
    stripUrls (ws ++ l) = ws ++ stripUrls l := by
  induction ws with
  | nil => simp
  | cons w rest ih =>
    rw [List.cons_append, stripUrls_cons,
      matchUrl_cons_ne_h (ws_ne_h (h w (List.mem_cons_self _ _)))]
    rw [ih (fun c hc => h c (List.mem_cons_of_mem _ hc))]
    rfl

theorem stripUrls_ws_suffix {ws : List Char} (l : List Char) (h : ∀ c ∈ ws, isWS c = true) :
    stripUrls (l ++ ws) = stripUrls l ++ ws := by
  cases ws with
  | nil => simp
  | cons w rest =>
    rw [stripUrls_append_ws (h w (List.mem_cons_self _ _)) l]
    rw [stripUrls_allWS h]

theorem stripParens_nil : stripParens [] = [] := rfl

theorem dropParen_none_iff {l : List Char} : dropParen l = none ↔ (')' : Char) ∉ l := by
  induction l with
  | nil => simp [dropParen]
  | cons c rest ih =>
    unfold dropParen
    by_cases hc : c = ')'
    · subst hc
      simp
    · rw [if_neg hc]
      simp [ih]
      intro h
      exact fun he => hc he.symm

theorem dropParen_append_some {r a : List Char} (x : List Char) (h : dropParen r = some a) :
    dropParen (r ++ x) = some (a ++ x) := by
  induction r with
  | nil => cases h
  | cons c rest ih =>
    rw [List.cons_append]
    unfold dropParen at h ⊢
    by_cases hc : c = ')'
    · rw [if_pos hc] at h ⊢
      cases h
      rfl
    · rw [if_neg hc] at h ⊢
      exact ih h

theorem stripParens_id_of_no_lparen {l : List Char} (h : ('(' : Char) ∉ l) :
    stripParens l = l := by
  induction l with
  | nil => rfl
  | cons c rest ih =>
    rw [stripParens_cons, if_neg (fun he => h (by rw [← he]; exact List.mem_cons_self _ _))]
    rw [ih (fun hc => h (List.mem_cons_of_mem _ hc))]

theorem stripParens_append_ws {ws : List Char} (hws : ∀ c ∈ ws, isWS c = true)
    (a : List Char) : stripParens (a ++ ws) = stripParens a ++ ws := by
  suffices key : ∀ (n : Nat) (a : List Char), a.length ≤ n →
      stripParens (a ++ ws) = stripParens a ++ ws from
    key a.length a (Nat.le_refl _)
  intro n
  induction n with
  | zero =>
    intro a ha
    have : a = [] := List.length_eq_zero.mp (Nat.le_zero.mp ha)
    subst this
    rw [List.nil_append, stripParens_nil, List.nil_append]
    exact stripParens_id_of_no_lparen
      (fun hc => ws_ne_lparen (hws _ hc) rfl)
  | succ n ih =>
    intro a ha
    cases a with
    | nil =>
      rw [List.nil_append, stripParens_nil, List.nil_append]
      exact stripParens_id_of_no_lparen
        (fun hc => ws_ne_lparen (hws _ hc) rfl)
    | cons c rest =>
      rw [List.cons_append, stripParens_cons, stripParens_cons]
      by_cases hc : c = '('
      · rw [if_pos hc, if_pos hc]
        cases hd : dropParen rest with
        | some a' =>
          have hlt := dropParen_some_length hd
          rw [dropParen_append_some ws hd]
          show ' ' :: stripParens (a' ++ ws) = (' ' :: stripParens a') ++ ws
          rw [ih a' (by simp at ha; omega)]
          rfl
        | none =>
          have hd2 : dropParen (rest ++ ws) = none := by
            rw [dropParen_none_iff]
            rw [dropParen_none_iff] at hd
            intro hmem
            rcases List.mem_append.mp hmem with h1 | h2
            · exact hd h1
            · exact ws_ne_rparen (hws _ h2) rfl
          rw [hd2]
          show c :: stripParens (rest ++ ws) = (c :: stripParens rest) ++ ws
          rw [ih rest (by simp at ha; omega)]
          rfl
      · rw [if_neg hc, if_neg hc]
        show c :: stripParens (rest ++ ws) = (c :: stripParens rest) ++ ws
        rw [ih rest (by simp at ha; omega)]
        rfl

theorem stripParens_ws_front {ws l : List Char} (h : ∀ c ∈ ws, isWS c = true) :
    stripParens (ws ++ l) = ws ++ stripParens l := by
  induction ws with
  | nil => simp
  | cons w rest ih =>
    rw [List.cons_append, stripParens_cons,
      if_neg (fun he => ws_ne_lparen (h w (List.mem_cons_self _ _)) he)]
    rw [ih (fun c hc => h c (List.mem_cons_of_mem _ hc))]
    rfl

theorem splitWords_nil : splitWords [] = [] := rfl

theorem splitWords_ws_front {ws l : List Char} (h : ∀ c ∈ ws, isWS c = true) :
    splitWords (ws ++ l) = splitWords l := by
  induction ws with
  | nil => simp
  | cons w rest ih =>
    rw [List.cons_append, splitWords_cons, if_pos (h w (List.mem_cons_self _ _))]
    exact ih (fun c hc => h c (List.mem_cons_of_mem _ hc))

theorem splitWords_allWS {ws : List Char} (h : ∀ c ∈ ws, isWS c = true) :
    splitWords ws = [] := by
  have := splitWords_ws_front (l := []) h
  simpa using this

theorem splitWords_append_sep {b : List Char} (a : List Char) :
    splitWords (a ++ ' ' :: b) = splitWords a ++ splitWords b := by
  suffices key : ∀ (n : Nat) (a : List Char), a.length ≤ n →
      splitWords (a ++ ' ' :: b) = splitWords a ++ splitWords b from
    key a.length a (Nat.le_refl _)
  intro n
  induction n with
  | zero =>
    intro a ha
    have : a = [] := List.length_eq_zero.mp (Nat.le_zero.mp ha)
    subst this
    rw [List.nil_append, splitWords_nil, List.nil_append, splitWords_cons]
    rw [if_pos (by decide)]
  | succ n ih =>
    intro a ha
    cases a with
    | nil =>
      rw [List.nil_append, splitWords_nil, List.nil_append, splitWords_cons]
      rw [if_pos (by decide)]
    | cons c rest =>
      rw [List.cons_append, splitWords_cons, splitWords_cons]
      by_cases hc : isWS c
      · rw [if_pos hc, if_pos hc]
        exact ih rest (by simp at ha; omega)
      · have hnc : (!isWS c) = true := by rw [eq_false_of_ne_true hc]; rfl
        have hsp : (!isWS ' ') = false := by decide
        rw [if_neg hc, if_neg hc]
        rw [show c :: (rest ++ ' ' :: b) = (c :: rest) ++ ' ' :: b from rfl]
        rw [takeWhile_append_stop hsp, dropWhile_append_stop hsp]
        have hdl : ((c :: rest).dropWhile (fun x => !isWS x)).length ≤ rest.length := by
          rw [List.dropWhile_cons, hnc]
          exact (List.dropWhile_sublist _).length_le
        rw [ih _ (by simp at ha; omega)]
        rfl

theorem splitWords_ws_suffix {ws : List Char} (l : List Char) (h : ∀ c ∈ ws, isWS c = true) :
    splitWords (l ++ ws) = splitWords l := by
  cases ws with
  | nil => simp
  | cons w rest =>
    have hw : isWS w = true := h w (List.mem_cons_self _ _)
    have hnw : (!isWS w) = false := by rw [hw]; rfl
    suffices key : ∀ (n : Nat) (l : List Char), l.length ≤ n →
        splitWords (l ++ w :: rest) = splitWords l from
      key l.length l (Nat.le_refl _)
    intro n
    induction n with
    | zero =>
      intro l hl
      have : l = [] := List.length_eq_zero.mp (Nat.le_zero.mp hl)
      subst this
      rw [List.nil_append, splitWords_nil, splitWords_allWS h]
    | succ n ih =>
      intro l hl
      cases l with
      | nil =>
        rw [List.nil_append, splitWords_nil, splitWords_allWS h]
      | cons c lrest =>
        rw [List.cons_append, splitWords_cons, splitWords_cons]
        by_cases hc : isWS c
        · rw [if_pos hc, if_pos hc]
          exact ih lrest (by simp at hl; omega)
        · have hnc : (!isWS c) = true := by rw [eq_false_of_ne_true hc]; rfl
          rw [if_neg hc, if_neg hc]
          rw [show c :: (lrest ++ w :: rest) = (c :: lrest) ++ w :: rest from rfl]
          rw [takeWhile_append_stop hnw, dropWhile_append_stop hnw]
          have hdl : ((c :: lrest).dropWhile (fun x => !isWS x)).length ≤ lrest.length := by
            rw [List.dropWhile_cons, hnc]
            exact (List.dropWhile_sublist _).length_le
          rw [ih _ (by simp at hl; omega)]

/-! ### Collapse-and-trim equals join-of-split -/

theorem joinWords_cons2 (w s : List Char) (rest : List (List Char)) :
    joinWords (w :: s :: rest) = w ++ ' ' :: joinWords (s :: rest) := rfl

theorem collapseWS_cons_word {c : Char} (hc : isWS c = false) (rest : List Char) :
    collapseWS (c :: rest) = c :: collapseWS rest := by
  cases rest with
  | nil =>
    unfold collapseWS
    rw [hc]
    rfl
  | cons d r =>
    show (if isWS c && isWS d then collapseWS (d :: r)
      else (if isWS c then ' ' else c) :: collapseWS (d :: r)) = _
    rw [hc]
    rfl

theorem collapseWS_word_front {wd : List Char} (hwd : ∀ c ∈ wd, isWS c = false)
    (x : List Char) : collapseWS (wd ++ x) = wd ++ collapseWS x := by
  induction wd with
  | nil => simp
  | cons c rest ih =>
    rw [List.cons_append, collapseWS_cons_word (hwd c (List.mem_cons_self _ _))]
    rw [ih (fun e he => hwd e (List.mem_cons_of_mem _ he))]
    rfl

theorem collapseWS_allWS {ws : List Char} (h : ∀ c ∈ ws, isWS c = true) (hne : ws ≠ []) :
    collapseWS ws = [' '] := by
  induction ws with
  | nil => exact absurd rfl hne
  | cons w rest ih =>
    have hw : isWS w = true := h w (List.mem_cons_self _ _)
    cases rest with
    | nil =>
      unfold collapseWS
      rw [hw]
      rfl
    | cons d r =>
      have hd : isWS d = true := h d (List.mem_cons_of_mem _ (List.mem_cons_self _ _))
      show (if isWS w && isWS d then collapseWS (d :: r)
        else (if isWS w then ' ' else w) :: collapseWS (d :: r)) = [' ']
      rw [hw, hd]
      show collapseWS (d :: r) = [' ']
      exact ih (fun e he => h e (List.mem_cons_of_mem _ he)) (by simp)

theorem collapseWS_ws_run {ws : List Char} (hws : ∀ c ∈ ws, isWS c = true) (hne : ws ≠ [])
    {x : List Char} (hx : ∀ d, x.head? = some d → isWS d = false) :
    collapseWS (ws ++ x) = ' ' :: collapseWS x := by
  induction ws with
  | nil => exact absurd rfl hne
  | cons w rest ih =>
    have hw : isWS w = true := hws w (List.mem_cons_self _ _)
    cases rest with
    | nil =>
      cases x with
      | nil =>
        show collapseWS [w] = [' ']
        unfold collapseWS
        rw [hw]
        rfl
      | cons d r =>
        have hd : isWS d = false := hx d rfl
        show (if isWS w && isWS d then collapseWS (d :: r)
          else (if isWS w then ' ' else w) :: collapseWS (d :: r)) = ' ' :: collapseWS (d :: r)
        rw [hw, hd]
        rfl
    | cons e rest2 =>
      have he : isWS e = true := hws e (List.mem_cons_of_mem _ (List.mem_cons_self _ _))
      show (if isWS w && isWS e then collapseWS (e :: (rest2 ++ x))
        else (if isWS w then ' ' else w) :: collapseWS (e :: (rest2 ++ x))) = ' ' :: collapseWS x
      rw [hw, he]
      show collapseWS ((e :: rest2) ++ x) = ' ' :: collapseWS x
      exact ih (fun c hc => hws c (List.mem_cons_of_mem _ hc)) (by simp)

theorem collapseWS_head_word {d : Char} (hd : isWS d = false) (y : List Char) :
    collapseWS (d :: y) = d :: collapseWS y := collapseWS_cons_word hd y

/-- The end-trimming half of strip. -/
theorem trimEnd_word_front {wd : List Char} (hwd : ∀ c ∈ wd, isWS c = false)
    (hne : wd ≠ []) (y : List Char) :
    ((wd ++ y).reverse.dropWhile isWS).reverse = wd ++ (y.reverse.dropWhile isWS).reverse := by
  rw [List.reverse_append, List.dropWhile_append]
  split
  · rename_i hemp
    rw [List.isEmpty_iff] at hemp
    rw [List.dropWhile_eq_nil_iff] at hemp
    have hwdrev : wd.reverse.dropWhile isWS = wd.reverse := by
      cases hrev : wd.reverse with
      | nil =>
        simp at hrev
        exact absurd hrev hne
      | cons a t =>
        have ha : a ∈ wd := by
          rw [← List.mem_reverse, hrev]
          exact List.mem_cons_self _ _
        rw [List.dropWhile_cons, hwd a ha]
        rfl
    rw [hwdrev, List.reverse_reverse]
    have : y.reverse.dropWhile isWS = [] := List.dropWhile_eq_nil_iff.mpr hemp
    rw [this]
    simp
  · rw [List.reverse_append, List.reverse_reverse]

theorem trimEnd_space_cons {z : List Char} {d : Char} (hd : isWS d = false)
    (hz : z.head? = some d) :
    ((' ' :: z).reverse.dropWhile isWS).reverse = ' ' :: (z.reverse.dropWhile isWS).reverse := by
  rw [List.reverse_cons, List.dropWhile_append]
  split
  · rename_i hemp
    rw [List.isEmpty_iff, List.dropWhile_eq_nil_iff] at hemp
    cases z with
    | nil => cases hz
    | cons a t =>
      cases hz
      have : isWS d = true := hemp d (by rw [List.mem_reverse]; exact List.mem_cons_self _ _)
      rw [this] at hd
      cases hd
  · rw [List.reverse_append]
    rfl

theorem cleanupWS_nil : cleanupWS [] = [] := rfl

theorem cleanupWS_ws_cons {c : Char} (hc : isWS c = true) (rest : List Char) :
    cleanupWS (c :: rest) = cleanupWS rest := by
  have key : (collapseWS (c :: rest)).dropWhile isWS = (collapseWS rest).dropWhile isWS := by
    cases rest with
    | nil =>
      have hcoll : collapseWS [c] = [' '] := by
        unfold collapseWS
        rw [hc]
        rfl
      rw [hcoll]
      decide
    | cons d r =>
      by_cases hd : isWS d
      · have hstep : collapseWS (c :: d :: r) = collapseWS (d :: r) := by
          show (if isWS c && isWS d then collapseWS (d :: r)
            else (if isWS c then ' ' else c) :: collapseWS (d :: r)) = collapseWS (d :: r)
          rw [hc, hd]
          rfl
        rw [hstep]
      · have hdf : isWS d = false := eq_false_of_ne_true hd
        have hstep : collapseWS (c :: d :: r) = ' ' :: collapseWS (d :: r) := by
          show (if isWS c && isWS d then collapseWS (d :: r)
            else (if isWS c then ' ' else c) :: collapseWS (d :: r)) = ' ' :: collapseWS (d :: r)
          rw [hc, hdf]
          rfl
        rw [hstep, List.dropWhile_cons]
        rw [show isWS ' ' = true by decide]
        rfl
  unfold cleanupWS trimWS
  rw [key]

theorem cleanup_eq_join_split (l : List Char) : cleanupWS l = joinWords (splitWords l) := by
  suffices key : ∀ (n : Nat) (l : List Char), l.length ≤ n →
      cleanupWS l = joinWords (splitWords l) from key l.length l (Nat.le_refl _)
  intro n
  induction n with
  | zero =>
    intro l hlen
    have : l = [] := List.length_eq_zero.mp (Nat.le_zero.mp hlen)
    subst this
    rfl
  | succ n ih =>
    intro l hlen
    cases l with
    | nil => rfl
    | cons c rest =>
      by_cases hc : isWS c
      · rw [cleanupWS_ws_cons hc, splitWords_cons, if_pos hc]
        exact ih rest (by simp at hlen; omega)
      · have hcf : isWS c = false := eq_false_of_ne_true hc
        have hncb : (!isWS c) = true := by rw [hcf]; rfl
        rw [splitWords_cons, if_neg hc]
        have hdecomp := List.takeWhile_append_dropWhile (p := fun x => !isWS x) (l := c :: rest)
        set wd := (c :: rest).takeWhile (fun x => !isWS x) with hwd_def
        set x := (c :: rest).dropWhile (fun x => !isWS x) with hx_def
        have hwd_chars : ∀ e ∈ wd, isWS e = false := by
          intro e he
          have := List.mem_takeWhile_imp he
          simp at this
          exact this
        have hwd_ne : wd ≠ [] := by
          rw [hwd_def, List.takeWhile_cons, hncb]
          simp
        have hx_head : ∀ d, x.head? = some d → isWS d = true := by
          intro d hd
          cases hx : x with
          | nil => rw [hx] at hd; cases hd
          | cons a t =>
            rw [hx] at hd
            cases hd
            have : ¬ (!isWS d) = true := by
              intro hcon
              have := List.head_dropWhile_not (p := fun e => !isWS e) (l := c :: rest)
              rw [← hx_def] at this
              rw [hx] at this
              simp at this
              rw [this] at hcon
              cases hcon
            simp at this
            exact this
        have hxlen : x.length ≤ rest.length := by
          rw [hx_def, List.dropWhile_cons, hncb]
          exact (List.dropWhile_sublist _).length_le
        rw [← hdecomp]
        unfold cleanupWS trimWS
        rw [collapseWS_word_front hwd_chars]
        have hfront : (wd ++ collapseWS x).dropWhile isWS = wd ++ collapseWS x := by
          cases hwdc : wd with
          | nil => exact absurd hwdc hwd_ne
          | cons a t =>
            rw [List.cons_append, List.dropWhile_cons]
            rw [hwd_chars a (by rw [hwdc]; exact List.mem_cons_self _ _)]
            rfl
        rw [hfront]
        rw [trimEnd_word_front hwd_chars hwd_ne]
        cases hxc : x with
        | nil =>
          show wd ++ _ = joinWords [wd]
          show wd ++ (([] : List Char).reverse.dropWhile isWS).reverse = joinWords [wd]
          simp [joinWords]
        | cons w xrest =>
          have hw : isWS w = true := hx_head w (by rw [hxc]; rfl)
          by_cases hallws : ∀ e ∈ x, isWS e = true
          · have hsplit_x : splitWords x = [] := splitWords_allWS hallws
            rw [hxc] at hsplit_x
            rw [hsplit_x]
            have hcoll : collapseWS (w :: xrest) = [' '] := by
              rw [← hxc]
              exact collapseWS_allWS hallws (by rw [hxc]; simp)
            rw [hcoll]
            show wd ++ (([' '] : List Char).reverse.dropWhile isWS).reverse = joinWords [wd]
            have : (([' '] : List Char).reverse.dropWhile isWS).reverse = [] := by decide
            rw [this]
            simp [joinWords]
          · push_neg at hallws
            set ws1 := x.takeWhile isWS with hws1_def
            set y := x.dropWhile isWS with hy_def
            have hy_ne : y ≠ [] := by
              rw [hy_def]
              intro hcon
              rw [List.dropWhile_eq_nil_iff] at hcon
              obtain ⟨e, he, hne⟩ := hallws
              exact hne (hcon e he)
            have hws1_chars : ∀ e ∈ ws1, isWS e = true := by
              intro e he
              exact List.mem_takeWhile_imp he
            have hy_head : ∀ d, y.head? = some d → isWS d = false := by
              intro d hd
              cases hyc : y with
              | nil => rw [hyc] at hd; cases hd
              | cons a t =>
                rw [hyc] at hd
                cases hd
                have := List.head_dropWhile_not (p := isWS) (l := x)
                rw [← hy_def, hyc] at this
                simp at this
                exact this
            have hxdecomp : ws1 ++ y = x := List.takeWhile_append_dropWhile isWS x
            have hws1_ne : ws1 ≠ [] := by
              rw [hws1_def, hxc, List.takeWhile_cons, hw]
              simp
            have hcoll : collapseWS x = ' ' :: collapseWS y := by
              rw [← hxdecomp]
              exact collapseWS_ws_run hws1_chars hws1_ne hy_head
            have hsplit_x : splitWords x = splitWords y := by
              rw [← hxdecomp]
              exact splitWords_ws_front hws1_chars
            obtain ⟨d, yrest, hyc⟩ := List.exists_cons_of_ne_nil hy_ne
            have hd : isWS d = false := hy_head d (by rw [hyc]; rfl)
            have hcolly_head : collapseWS y = d :: collapseWS yrest := by
              rw [hyc]
              exact collapseWS_head_word hd yrest
            rw [hxc] at hcoll
            rw [hcoll]
            rw [trimEnd_space_cons hd (by rw [hcolly_head]; rfl)]
            have hylen : y.length ≤ x.length := (List.dropWhile_sublist _).length_le
            have hiy : cleanupWS y = joinWords (splitWords y) := by
              apply ih
              simp at hlen
              omega
            have hcleany : cleanupWS y = ((collapseWS y).reverse.dropWhile isWS).reverse := by
              unfold cleanupWS trimWS
              have : (collapseWS y).dropWhile isWS = collapseWS y := by
                rw [hcolly_head, List.dropWhile_cons, hd]
                rfl
              rw [this]
            have hsy_ne : splitWords y ≠ [] := by
              rw [hyc, splitWords_cons, if_neg (by rw [hd]; simp)]
              simp
            rw [hxc] at hsplit_x
            rw [hsplit_x]
            cases hsw : splitWords y with
            | nil => exact absurd hsw hsy_ne
            | cons s srest =>
              rw [joinWords_cons2]
              rw [← hcleany]
              rw [hiy, hsw]

/-! ### Split words are nonempty, whitespace-free subsets; join round-trips -/

theorem splitWords_words_good (l : List Char) :
    ∀ w ∈ splitWords l, w ≠ [] ∧ ∀ c ∈ w, isWS c = false ∧ c ∈ l := by
  suffices key : ∀ (n : Nat) (l : List Char), l.length ≤ n →
      ∀ w ∈ splitWords l, w ≠ [] ∧ ∀ c ∈ w, isWS c = false ∧ c ∈ l from
    key l.length l (Nat.le_refl _)
  intro n
  induction n with
  | zero =>
    intro l hlen w hw
    have : l = [] := List.length_eq_zero.mp (Nat.le_zero.mp hlen)
    subst this
    cases hw
  | succ n ih =>
    intro l hlen w hw
    cases l with
    | nil => cases hw
    | cons c rest =>
      rw [splitWords_cons] at hw
      by_cases hc : isWS c
      · rw [if_pos hc] at hw
        have := ih rest (by simp at hlen; omega) w hw
        exact ⟨this.1, fun e he => ⟨(this.2 e he).1,
          List.mem_cons_of_mem _ (this.2 e he).2⟩⟩
      · have hncb : (!isWS c) = true := by rw [eq_false_of_ne_true hc]; rfl
        rw [if_neg hc] at hw
        rcases List.mem_cons.mp hw with hw1 | hw2
        · subst hw1
          constructor
          · rw [List.takeWhile_cons, hncb]
            simp
          · intro e he
            have hp := List.mem_takeWhile_imp he
            simp at hp
            exact ⟨hp, (List.takeWhile_sublist _).subset he⟩
        · have hdl : ((c :: rest).dropWhile (fun x => !isWS x)).length ≤ rest.length := by
            rw [List.dropWhile_cons, hncb]
            exact (List.dropWhile_sublist _).length_le
          have := ih _ (by simp at hlen; omega) w hw2
          exact ⟨this.1, fun e he => ⟨(this.2 e he).1,
            (List.dropWhile_sublist _).subset (this.2 e he).2⟩⟩

theorem splitWords_single_word {w : List Char} (hne : w ≠ [])
    (hch : ∀ c ∈ w, isWS c = false) : splitWords w = [w] := by
  cases w with
  | nil => exact absurd rfl hne
  | cons c rest =>
    have hc : isWS c = false := hch c (List.mem_cons_self _ _)
    have hall : ∀ a ∈ c :: rest, (fun x => !isWS x) a = true := by
      intro a ha
      simp [hch a ha]
    rw [splitWords_cons, if_neg (by rw [hc]; simp)]
    have ht : (c :: rest).takeWhile (fun x => !isWS x) = c :: rest := by
      have := @List.takeWhile_append_of_pos Char (fun x => !isWS x) (c :: rest) [] hall
      simpa using this
    have hd : (c :: rest).dropWhile (fun x => !isWS x) = [] := by
      have := @List.dropWhile_append_of_pos Char (fun x => !isWS x) (c :: rest) [] hall
      simpa using this
    rw [ht, hd, splitWords_nil]

theorem splitWords_joinWords {W : List (List Char)}
    (hW : ∀ w ∈ W, w ≠ [] ∧ ∀ c ∈ w, isWS c = false) :
    splitWords (joinWords W) = W := by
  induction W with
  | nil => rfl
  | cons w W' ih =>
    have hw := hW w (List.mem_cons_self _ _)
    cases W' with
    | nil =>
      show splitWords w = [w]
      exact splitWords_single_word hw.1 hw.2
    | cons s W'' =>
      rw [joinWords_cons2, splitWords_append_sep w]
      rw [splitWords_single_word hw.1 hw.2]
      rw [ih (fun v hv => hW v (List.mem_cons_of_mem _ hv))]
      rfl

theorem splitWords_cleanupWS (l : List Char) : splitWords (cleanupWS l) = splitWords l := by
  rw [cleanup_eq_join_split]
  exact splitWords_joinWords
    (fun w hw => ⟨(splitWords_words_good l w hw).1,
      fun c hc => ((splitWords_words_good l w hw).2 c hc).1⟩)

theorem cleanupWS_idem (l : List Char) : cleanupWS (cleanupWS l) = cleanupWS l := by
  rw [cleanup_eq_join_split (cleanupWS l), splitWords_cleanupWS, ← cleanup_eq_join_split]

/-! ### Characters of the normalized output -/

theorem joinWords_chars {W : List (List Char)} :
    ∀ c ∈ joinWords W, (∃ w ∈ W, c ∈ w) ∨ c = ' ' := by
  induction W with
  | nil => intro c hc; cases hc
  | cons w W' ih =>
    cases W' with
    | nil =>
      intro c hc
      exact Or.inl ⟨w, List.mem_cons_self _ _, hc⟩
    | cons s W'' =>
      intro c hc
      rw [joinWords_cons2] at hc
      rcases List.mem_append.mp hc with h1 | h2
      · exact Or.inl ⟨w, List.mem_cons_self _ _, h1⟩
      · rcases List.mem_cons.mp h2 with h3 | h4
        · exact Or.inr h3
        · rcases ih c h4 with ⟨v, hv, hcv⟩ | hsp
          · exact Or.inl ⟨v, List.mem_cons_of_mem _ hv, hcv⟩
          · exact Or.inr hsp

theorem cleanupWS_chars {l : List Char} :
    ∀ c ∈ cleanupWS l, (isWS c = false ∧ c ∈ l) ∨ c = ' ' := by
  intro c hc
  rw [cleanup_eq_join_split] at hc
  rcases joinWords_chars c hc with ⟨w, hw, hcw⟩ | hsp
  · have := (splitWords_words_good l w hw).2 c hcw
    exact Or.inl ⟨this.1, this.2⟩
  · exact Or.inr hsp

theorem charFilter_chars {l : List Char} : ∀ c ∈ charFilter l, isAllowed c = true := by
  intro c hc
  unfold charFilter at hc
  rcases List.mem_map.mp hc with ⟨e, _, he⟩
  by_cases ha : isAllowed e
  · rw [if_pos ha] at he
    rw [← he]
    exact ha
  · rw [if_neg ha] at he
    rw [← he]
    decide

theorem normalizeL_chars {l : List Char} :
    ∀ c ∈ normalizeL l, isAllowed c = true ∧ (isWS c = true → c = ' ') := by
  intro c hc
  unfold normalizeL at hc
  rcases cleanupWS_chars c hc with ⟨hnw, hmem⟩ | hsp
  · refine ⟨charFilter_chars c hmem, ?_⟩
    intro hws
    rw [hws] at hnw
    cases hnw
  · subst hsp
    exact ⟨by decide, fun _ => rfl⟩

/-! ### The second normalize pass is the identity on normalized output -/

theorem lowerChar_id_of_allowed {c : Char} (h : isAllowed c = true) : lowerChar c = c := by
  unfold lowerChar
  rw [if_neg]
  intro hcon
  simp [isAllowed, isWS] at h
  omega

theorem stripUrls_id_of_no_colon {l : List Char} (h : ∀ c ∈ l, c.toNat ≠ 58) :
    stripUrls l = l := by
  suffices key : ∀ (n : Nat) (l : List Char), l.length ≤ n → (∀ c ∈ l, c.toNat ≠ 58) →
      stripUrls l = l from key l.length l (Nat.le_refl _) h
  intro n
  induction n with
  | zero =>
    intro l hlen _
    have : l = [] := List.length_eq_zero.mp (Nat.le_zero.mp hlen)
    subst this
    rfl
  | succ n ih =>
    intro l hlen hl
    cases l with
    | nil => rfl
    | cons c rest =>
      rw [stripUrls_cons]
      cases hm : matchUrl (c :: rest) with
      | some a =>
        have := matchUrl_some_colon hm
        have h58 : (':' : Char).toNat = 58 := by decide
        exact absurd h58 (hl _ this)
      | none =>
        rw [ih rest (by simp at hlen; omega) (fun e he => hl e (List.mem_cons_of_mem _ he))]

theorem charFilter_id_of_allowed {l : List Char} (h : ∀ c ∈ l, isAllowed c = true) :
    charFilter l = l := by
  unfold charFilter
  conv_rhs => rw [← List.map_id l]
  exact List.map_congr_left (fun c hc => by rw [if_pos (h c hc)]; rfl)

theorem allowed_ne_colon {c : Char} (h : isAllowed c = true) : c.toNat ≠ 58 := by
  simp [isAllowed, isWS] at h
  omega

theorem allowed_ne_lparen {c : Char} (h : isAllowed c = true) : c ≠ '(' := by
  intro he
  subst he
  exact absurd h (by decide)

theorem normalizeL_idem (l : List Char) : normalizeL (normalizeL l) = normalizeL l := by
  have hch := normalizeL_chars (l := l)
  set out := normalizeL l with hout
  have h1 : out.map lowerChar = out := by
    conv_rhs => rw [← List.map_id out]
    exact List.map_congr_left (fun c hc => lowerChar_id_of_allowed (hch c hc).1)
  have h2 : stripUrls out = out :=
    stripUrls_id_of_no_colon (fun c hc => allowed_ne_colon (hch c hc).1)
  have h3 : stripParens out = out :=
    stripParens_id_of_no_lparen (fun hc => allowed_ne_lparen (hch _ hc).1 rfl)
  have h4 : charFilter out = out :=
    charFilter_id_of_allowed (fun c hc => (hch c hc).1)
  show cleanupWS (charFilter (stripParens (stripUrls (out.map lowerChar)))) = out
  rw [h1, h2, h3, h4, hout]
  show cleanupWS (cleanupWS (charFilter (stripParens (stripUrls (l.map lowerChar))))) = _
  rw [cleanupWS_idem]
  rfl

/-! ### Leading and trailing whitespace does not affect normalize -/

theorem lowerChar_id_of_ws {c : Char} (h : isWS c = true) : lowerChar c = c :=
  lowerChar_id_of_allowed (by simp [isAllowed, h])

theorem ws_allowed {c : Char} (h : isWS c = true) : isAllowed c = true := by
  simp [isAllowed, h]

theorem map_lower_ws {ws : List Char} (h : ∀ c ∈ ws, isWS c = true) :
    ws.map lowerChar = ws := by
  conv_rhs => rw [← List.map_id ws]
  exact List.map_congr_left (fun c hc => lowerChar_id_of_ws (h c hc))

theorem charFilter_ws {ws : List Char} (h : ∀ c ∈ ws, isWS c = true) :
    charFilter ws = ws :=
  charFilter_id_of_allowed (fun c hc => ws_allowed (h c hc))

theorem normalizeL_wsEnds {pre suf : List Char} (mid : List Char)
    (hpre : ∀ c ∈ pre, isWS c = true) (hsuf : ∀ c ∈ suf, isWS c = true) :
    normalizeL (pre ++ mid ++ suf) = normalizeL mid := by
  unfold normalizeL
  rw [List.map_append, List.map_append, map_lower_ws hpre, map_lower_ws hsuf]
  rw [show pre ++ mid.map lowerChar ++ suf = pre ++ (mid.map lowerChar ++ suf) from
    List.append_assoc _ _ _]
  rw [stripUrls_ws_front hpre, stripUrls_ws_suffix _ hsuf]
  rw [show pre ++ (stripUrls (mid.map lowerChar) ++ suf) =
    pre ++ stripUrls (mid.map lowerChar) ++ suf from (List.append_assoc _ _ _).symm]
  rw [show pre ++ stripUrls (mid.map lowerChar) ++ suf =
    pre ++ (stripUrls (mid.map lowerChar) ++ suf) from List.append_assoc _ _ _]
  rw [stripParens_ws_front hpre, stripParens_append_ws hsuf]
  rw [charFilter, List.map_append, List.map_append, ← charFilter, ← charFilter, ← charFilter]
  rw [charFilter_ws hpre, charFilter_ws hsuf]
  rw [cleanup_eq_join_split, cleanup_eq_join_split]
  rw [show charFilter (stripParens (stripUrls (mid.map lowerChar))) ++ suf =
    (charFilter (stripParens (stripUrls (mid.map lowerChar))) ++ suf : List Char) from rfl]
  rw [splitWords_ws_front hpre, splitWords_ws_suffix _ hsuf]

theorem trim_decomp (l : List Char) :
    ∃ pre suf, (∀ c ∈ pre, isWS c = true) ∧ (∀ c ∈ suf, isWS c = true) ∧
      l = pre ++ trimWS l ++ suf := by
  refine ⟨l.takeWhile isWS, ((l.dropWhile isWS).reverse.takeWhile isWS).reverse,
    fun c hc => List.mem_takeWhile_imp hc,
    fun c hc => List.mem_takeWhile_imp (List.mem_reverse.mp hc), ?_⟩
  unfold trimWS
  conv_lhs => rw [← List.takeWhile_append_dropWhile (p := isWS) (l := l)]
  rw [List.append_assoc]
  congr 1
  set mid := l.dropWhile isWS with hmid
  conv_lhs => rw [← List.reverse_reverse mid]
  conv_lhs => rw [← List.takeWhile_append_dropWhile (p := isWS) (l := mid.reverse)]
  rw [List.reverse_append]

theorem normalizeL_trimWS (l : List Char) : normalizeL (trimWS l) = normalizeL l := by
  obtain ⟨pre, suf, hpre, hsuf, hdec⟩ := trim_decomp l
  conv_rhs => rw [hdec]
  rw [normalizeL_wsEnds _ hpre hsuf]

theorem tokenize_pyStrip (s : String) : tokenize (pyStrip s) = tokenize s := by
  unfold tokenize
  show (((splitWords (normalizeL (trimWS s.data))).map _).filter _ : List String) = _
  rw [normalizeL_trimWS]
  rfl

/-! ### Skipped records leave the cluster state unchanged -/

theorem clusterStep_skip {t : Rat} {cs : List Cluster} {r : Row}
    (h : tokenize r.title = []) : clusterStep t cs r = cs := by
  unfold clusterStep
  by_cases h1 : (pyStrip r.title).data.isEmpty
  · rw [if_pos h1]
  · rw [if_neg h1]
    have h2 : tokenize (pyStrip r.title) = [] := by rw [tokenize_pyStrip]; exact h
    simp [h2]

theorem foldl_clusterStep_skip {t : Rat} {rows : List Row}
    (h : ∀ r ∈ rows, tokenize r.title = []) (cs : List Cluster) :
    rows.foldl (clusterStep t) cs = cs := by
  induction rows generalizing cs with
  | nil => rfl
  | cons r rest ih =>
    show rest.foldl (clusterStep t) (clusterStep t cs r) = cs
    rw [clusterStep_skip (h r (List.mem_cons_self _ _))]
    exact ih (fun x hx => h x (List.mem_cons_of_mem _ hx)) cs

theorem preClusters_nil_of_untokenizable {t : Rat} {rows : List Row}
    (h : ∀ r ∈ rows, tokenize r.title = []) : preClusters rows t = [] :=
  foldl_clusterStep_skip h []

/-! ### Claim theorems (first group) -/

/-- C9: normalize is idempotent — normalize (normalize s) = normalize s for every
string — and on the concrete example the documented value is produced. -/
theorem claim_C9_normalize_idem :
    (∀ s : String, normalize (normalize s) = normalize s) ∧
    normalize "HELLO (test) https://x.co WORLD!!" = "hello world" := by
  constructor
  · intro s
    show (⟨normalizeL (normalizeL s.data)⟩ : String) = (⟨normalizeL s.data⟩ : String)
    rw [normalizeL_idem]
  · decide

/-- C5: is_low_signal is true exactly when the token set of the space-joined
concatenation of title and description meets at least 2 sports words, or at
least 2 lifestyle words, or at least 3 finance-ticker words. -/
theorem claim_C5_low_signal (title desc : String) :
    is_low_signal title desc = true ↔
      (2 ≤ ((tokenize (title ++ " " ++ desc)).toFinset ∩ SPORTS).card ∨
       2 ≤ ((tokenize (title ++ " " ++ desc)).toFinset ∩ LIFESTYLE_LOCAL).card ∨
       3 ≤ ((tokenize (title ++ " " ++ desc)).toFinset ∩ FINANCE_TICKER).card) := by
  unfold is_low_signal
  dsimp only
  split_ifs with h1 h2 h3
  · simp [h1]
  · simp [h2]
  · simp [h3]
  · simp [h1, h2, h3]

/-- C8: tokenize returns the whitespace-split words of the normalized text
filtered by the stop-word, length and digits rules; on the concrete example it
returns the documented value; and every returned token survives all three
filters. -/
theorem claim_C8_tokenize :
    tokenize "The economy grew in Q3" = ["economy", "grew"] ∧
    (∀ t : String, tokenize t =
      ((splitWords (normalize t).data).map (fun w => (⟨w⟩ : String))).filter
        (fun w => !STOP.contains w && decide (2 < w.length) && !pyIsDigit w)) ∧
    (∀ (t w : String), w ∈ tokenize t →
      w ∉ STOP ∧ 2 < w.length ∧ pyIsDigit w = false) := by
  refine ⟨by decide, fun t => rfl, ?_⟩
  intro t w hw
  unfold tokenize at hw
  have hk := List.of_mem_filter hw
  unfold keepToken at hk
  simp at hk
  exact ⟨hk.1.1, hk.1.2, hk.2⟩

/-- C8 witness: the filter properties at a concrete token of a concrete text. -/
theorem claim_C8_witness :
    "economy" ∉ STOP ∧ 2 < "economy".length ∧ pyIsDigit "economy" = false :=
  claim_C8_tokenize.2.2 "The economy grew in Q3" "economy" (by decide)

/-- C1 (code evaluation): with a single clusterable record the pipeline makes
exactly one cluster, the template then reads lines[1] past the end of a
1-element list, and the run fails (IndexError, modelled as none) instead of
returning a paragraph. -/
theorem claim_C1_code_evaluation :
    build_clean_paragraph [⟨"economy grew strongly", ""⟩] = none := by decide

/-- C6: for nonempty input the paragraph is assembled from the clustering of
the filtered subset exactly when at least 40 records survive the signal
filter, and from the full input list otherwise. -/
theorem claim_C6_corpus (rows : List Row) (hne : rows ≠ []) :
    (build_clean_paragraph rows = assembleParagraph (cluster_titles
      (if 40 ≤ (rows.filter (fun r => !is_low_signal r.title r.description)).length
       then rows.filter (fun r => !is_low_signal r.title r.description) else rows)
      (mkRat 33 100))) ∧
    (40 ≤ (rows.filter (fun r => !is_low_signal r.title r.description)).length →
      (if 40 ≤ (rows.filter (fun r => !is_low_signal r.title r.description)).length
       then rows.filter (fun r => !is_low_signal r.title r.description) else rows) =
        rows.filter (fun r => !is_low_signal r.title r.description)) ∧
    ((rows.filter (fun r => !is_low_signal r.title r.description)).length < 40 →
      (if 40 ≤ (rows.filter (fun r => !is_low_signal r.title r.description)).length
       then rows.filter (fun r => !is_low_signal r.title r.description) else rows) = rows) := by
  refine ⟨?_, fun h40 => if_pos h40, fun h40 => if_neg (by omega)⟩
  unfold build_clean_paragraph
  rw [if_neg (by simp [hne])]

/-- C6 witness: with a single record fewer than 40 survive, so the full list
is clustered. -/
theorem claim_C6_witness :
    build_clean_paragraph [⟨"economy grew strongly", ""⟩] = assembleParagraph
      (cluster_titles
        (if 40 ≤ (([⟨"economy grew strongly", ""⟩] : List Row).filter
            (fun r => !is_low_signal r.title r.description)).length
         then ([⟨"economy grew strongly", ""⟩] : List Row).filter
            (fun r => !is_low_signal r.title r.description)
         else [⟨"economy grew strongly", ""⟩])
        (mkRat 33 100)) :=
  (claim_C6_corpus [⟨"economy grew strongly", ""⟩] (by simp)).1

/-- C4: the empty input returns the fixed no-headlines sentinel, and a
nonempty input in which every title tokenizes to nothing returns the fixed
insufficient-signal sentinel; neither case is an exception (both are values). -/
theorem claim_C4_sentinels :
    build_clean_paragraph [] = some noHeadlinesMsg ∧
    ∀ rows : List Row, rows ≠ [] → (∀ r ∈ rows, tokenize r.title = []) →
      build_clean_paragraph rows = some insufficientMsg := by
  refine ⟨rfl, ?_⟩
  intro rows hne hall
  unfold build_clean_paragraph
  rw [if_neg (by simp [hne])]
  have hcorp : ∀ r ∈ (if 40 ≤ (rows.filter
      (fun r => !is_low_signal r.title r.description)).length
      then rows.filter (fun r => !is_low_signal r.title r.description) else rows),
      tokenize r.title = [] := by
    split
    · exact fun r hr => hall r (List.mem_of_mem_filter hr)
    · exact hall
  unfold cluster_titles
  dsimp only
  rw [preClusters_nil_of_untokenizable hcorp]
  rfl

/-- C4 witness: a single empty-titled record yields the insufficient-signal
sentinel. -/
theorem claim_C4_witness :
    build_clean_paragraph [⟨"", ""⟩] = some insufficientMsg :=
  claim_C4_sentinels.2 [⟨"", ""⟩] (by simp) (by decide)

/-! ### Parenthesis-freeness through the pipeline; splitting at the separator -/

theorem toNat_lowerChar_upper {c : Char} (h : 65 ≤ c.toNat ∧ c.toNat ≤ 90) :
    (lowerChar c).toNat = c.toNat + 32 := by
  unfold lowerChar
  rw [if_pos h]
  have hv : (c.toNat + 32).isValidChar := Or.inl (by omega)
  unfold Char.ofNat
  rw [dif_pos hv]
  rfl

theorem lowerChar_ne_lparen {c : Char} (h : c ≠ '(') : lowerChar c ≠ '(' := by
  by_cases hr : 65 ≤ c.toNat ∧ c.toNat ≤ 90
  · intro he
    have hto := congrArg Char.toNat he
    rw [toNat_lowerChar_upper hr] at hto
    have h40 : ('(' : Char).toNat = 40 := by decide
    rw [h40] at hto
    omega
  · unfold lowerChar
    rw [if_neg hr]
    exact h

theorem no_lparen_map_lower {l : List Char} (h : ('(' : Char) ∉ l) :
    ('(' : Char) ∉ l.map lowerChar := by
  intro hc
  rcases List.mem_map.mp hc with ⟨e, he, hee⟩
  exact lowerChar_ne_lparen (fun hcon => h (hcon ▸ he)) hee

theorem matchUrl_some_subset {l a : List Char} (h : matchUrl l = some a) : a ⊆ l := by
  cases hA : afterScheme l with
  | none =>
    have hm : matchUrl l = none := by unfold matchUrl; rw [hA]
    rw [hm] at h
    cases h
  | some r =>
    have hr : r ⊆ l := by
      unfold afterScheme at hA
      split at hA
      · cases hA
        exact List.drop_subset _ _
      · split at hA
        · cases hA
          exact List.drop_subset _ _
        · cases hA
    have hm : matchUrl l = if (r.takeWhile fun c => !isWS c).isEmpty then none
        else some (r.dropWhile fun c => !isWS c) := by
      unfold matchUrl
      rw [hA]
    rw [hm] at h
    by_cases hb : (r.takeWhile fun c => !isWS c).isEmpty
    · rw [if_pos hb] at h; cases h
    · rw [if_neg hb] at h
      cases h
      exact fun x hx => hr ((List.dropWhile_sublist _).subset hx)

theorem stripUrls_chars {l : List Char} : ∀ c ∈ stripUrls l, c ∈ l ∨ c = ' ' := by
  suffices key : ∀ (n : Nat) (l : List Char), l.length ≤ n →
      ∀ c ∈ stripUrls l, c ∈ l ∨ c = ' ' from key l.length l (Nat.le_refl _)
  intro n
  induction n with
  | zero =>
    intro l hlen c hc
    have : l = [] := List.length_eq_zero.mp (Nat.le_zero.mp hlen)
    subst this
    cases hc
  | succ n ih =>
    intro l hlen c hc
    cases l with
    | nil => cases hc
    | cons e rest =>
      rw [stripUrls_cons] at hc
      cases hm : matchUrl (e :: rest) with
      | some a =>
        rw [hm] at hc
        rcases List.mem_cons.mp hc with h1 | h2
        · exact Or.inr h1
        · have hlt := matchUrl_some_length hm
          rcases ih a (by simp at hlt hlen ⊢; omega) c h2 with h3 | h4
          · exact Or.inl (matchUrl_some_subset hm h3)
          · exact Or.inr h4
      | none =>
        rw [hm] at hc
        rcases List.mem_cons.mp hc with h1 | h2
        · exact Or.inl (h1 ▸ List.mem_cons_self _ _)
        · rcases ih rest (by simp at hlen; omega) c h2 with h3 | h4
          · exact Or.inl (List.mem_cons_of_mem _ h3)
          · exact Or.inr h4

theorem no_lparen_stripUrls {l : List Char} (h : ('(' : Char) ∉ l) :
    ('(' : Char) ∉ stripUrls l := by
  intro hc
  rcases stripUrls_chars _ hc with h1 | h2
  · exact h h1
  · cases h2

theorem charFilter_sep_split (x y : List Char) :
    charFilter (x ++ ' ' :: y) = charFilter x ++ ' ' :: charFilter y := by
  unfold charFilter
  rw [List.map_append, List.map_cons]
  rw [show (if isAllowed ' ' then ' ' else ' ') = ' ' from by decide]

theorem tokenize_append_sep {t d : String} (ht : ('(' : Char) ∉ t.data)
    (hd : ('(' : Char) ∉ d.data) :
    tokenize (t ++ " " ++ d) = tokenize t ++ tokenize d := by
  have hsp : isWS ' ' = true := by decide
  have hsd : (" " : String).data = [' '] := by decide
  have hdata : (t ++ " " ++ d).data = t.data ++ ' ' :: d.data := by
    rw [String.data_append, String.data_append, hsd, List.append_assoc]
    rfl
  set A := t.data.map lowerChar with hA
  set B := d.data.map lowerChar with hB
  have hA_np : ('(' : Char) ∉ A := no_lparen_map_lower ht
  have hB_np : ('(' : Char) ∉ B := no_lparen_map_lower hd
  have hSU_A : ('(' : Char) ∉ stripUrls A := no_lparen_stripUrls hA_np
  have hSU_B : ('(' : Char) ∉ stripUrls B := no_lparen_stripUrls hB_np
  have hT : tokenize t = List.filter keepToken
      (List.map (fun w => (⟨w⟩ : String)) (splitWords (charFilter (stripUrls A)))) := by
    show List.filter keepToken
      (List.map (fun w => (⟨w⟩ : String)) (splitWords (normalizeL t.data))) = _
    unfold normalizeL
    rw [stripParens_id_of_no_lparen hSU_A, splitWords_cleanupWS]
  have hD : tokenize d = List.filter keepToken
      (List.map (fun w => (⟨w⟩ : String)) (splitWords (charFilter (stripUrls B)))) := by
    show List.filter keepToken
      (List.map (fun w => (⟨w⟩ : String)) (splitWords (normalizeL d.data))) = _
    unfold normalizeL
    rw [stripParens_id_of_no_lparen hSU_B, splitWords_cleanupWS]
  show List.filter keepToken
    (List.map (fun w => (⟨w⟩ : String)) (splitWords (normalizeL (t ++ " " ++ d).data))) = _
  rw [hdata]
  unfold normalizeL
  rw [List.map_append, List.map_cons, show lowerChar ' ' = ' ' from by decide]
  rw [stripUrls_append_ws hsp]
  rw [show stripUrls (' ' :: B) = ' ' :: stripUrls B from by
    rw [show (' ' :: B : List Char) = [' '] ++ B from rfl,
      stripUrls_ws_front (by intro c hc; simp at hc; rw [hc]; decide)]
    rfl]
  rw [stripParens_id_of_no_lparen (by
    intro hc
    rcases List.mem_append.mp hc with h1 | h2
    · exact hSU_A h1
    · rcases List.mem_cons.mp h2 with h3 | h4
      · cases h3
      · exact hSU_B h4)]
  rw [charFilter_sep_split]
  rw [splitWords_cleanupWS, splitWords_append_sep]
  rw [List.map_append, List.filter_append, hT, hD]

/-! ### Claim C10 -/

/-- C10 counterexample: the paren-stripping regex acts on the joined text, so
swapping title and description changes the token set: with title "( nba" and
description ") nfl" the sports words are hidden inside a parenthetical span in
one order but not in the other. -/
theorem claim_C10_counterexample :
    ¬ (is_low_signal "( nba" ") nfl" = is_low_signal ") nfl" "( nba") := by decide

/-- C10 amended: is_low_signal is symmetric in its two arguments whenever
neither text contains an opening parenthesis (so no parenthetical span can
cross the join); in general the claim fails. -/
theorem claim_C10_amended (t d : String) (ht : ('(' : Char) ∉ t.data)
    (hd : ('(' : Char) ∉ d.data) :
    is_low_signal t d = is_low_signal d t := by
  unfold is_low_signal
  dsimp only
  have h1 : (tokenize (t ++ " " ++ d)).toFinset = (tokenize (d ++ " " ++ t)).toFinset := by
    rw [tokenize_append_sep ht hd, tokenize_append_sep hd ht]
    rw [List.toFinset_append, List.toFinset_append]
    exact Finset.union_comm _ _
  rw [h1]

/-- C10 witness: symmetry at concrete paren-free texts. -/
theorem claim_C10_witness :
    is_low_signal "nba nfl game" "hello" = is_low_signal "hello" "nba nfl game" :=
  claim_C10_amended "nba nfl game" "hello" (by decide) (by decide)

/-! ### Claim C2: best-match invariants and the join condition -/

theorem bestStep_fold_inv (tks : List String) :
    ∀ (cs : List Cluster) (acc : Option Nat × Rat × Nat),
      (acc.1 = none → acc.2.1 = 0) → (∀ j, acc.1 = some j → j < acc.2.2) →
      ((cs.foldl (bestStep tks) acc).1 = none → (cs.foldl (bestStep tks) acc).2.1 = 0) ∧
      (∀ j, (cs.foldl (bestStep tks) acc).1 = some j →
        j < (cs.foldl (bestStep tks) acc).2.2) := by
  intro cs
  induction cs with
  | nil => intro acc h1 h2; exact ⟨h1, h2⟩
  | cons c rest ih =>
    intro acc h1 h2
    show ((rest.foldl (bestStep tks) (bestStep tks acc c)).1 = none → _) ∧ _
    apply ih
    · unfold bestStep
      dsimp only
      split
      · intro hcon; cases hcon
      · exact h1
    · unfold bestStep
      dsimp only
      split
      · intro j hj
        cases hj
        show acc.2.2 < acc.2.2 + 1
        omega
      · intro j hj
        have := h2 j hj
        show j < acc.2.2 + 1
        omega

theorem bestMatch_none_zero {tks : List String} {cs : List Cluster}
    (h : (bestMatch tks cs).1 = none) : (bestMatch tks cs).2 = 0 := by
  unfold bestMatch at h ⊢
  exact (bestStep_fold_inv tks cs (none, 0, 0) (fun _ => rfl)
    (fun j hj => by cases hj)).1 h

theorem clusterStep_eq_spec {t : Rat} (ht : 0 < t) (cs : List Cluster) (r : Row) :
    clusterStep t cs r = clusterStepSpec t cs r := by
  unfold clusterStep clusterStepSpec
  dsimp only
  by_cases h1 : (pyStrip r.title).data.isEmpty
  · rw [if_pos h1, if_pos h1]
  · rw [if_neg h1, if_neg h1]
    by_cases h2 : (tokenize (pyStrip r.title)).isEmpty
    · rw [if_pos h2, if_pos h2]
    · rw [if_neg h2, if_neg h2]
      by_cases h3 : cs.isEmpty
      · have hcs : cs = [] := List.isEmpty_iff.mp h3
        subst hcs
        have hbm : bestMatch (tokenize (pyStrip r.title)) [] = (none, 0) := rfl
        rw [if_pos (show ([] : List Cluster).isEmpty = true from rfl), hbm]
        rw [if_neg (by simp)]
      · rw [if_neg (show ¬(cs.isEmpty = true) from h3)]
        by_cases h4 : t ≤ (bestMatch (tokenize (pyStrip r.title)) cs).2
        · have hne : (bestMatch (tokenize (pyStrip r.title)) cs).1 ≠ none := by
            intro hcon
            have := bestMatch_none_zero hcon
            rw [this] at h4
            exact absurd (lt_of_lt_of_le ht h4) (lt_irrefl 0)
          have hsome : (bestMatch (tokenize (pyStrip r.title)) cs).1.isSome = true :=
            Option.isSome_iff_ne_none.mpr hne
          rw [if_pos h4]
          rw [if_pos (show ((bestMatch (tokenize (pyStrip r.title)) cs).1.isSome &&
              decide (t ≤ (bestMatch (tokenize (pyStrip r.title)) cs).2)) = true from by
            rw [hsome, decide_eq_true h4]
            rfl)]
        · rw [if_neg h4]
          rw [if_neg (show ¬(((bestMatch (tokenize (pyStrip r.title)) cs).1.isSome &&
              decide (t ≤ (bestMatch (tokenize (pyStrip r.title)) cs).2)) = true) from by
            rw [decide_eq_false h4]
            simp)]

/-- C2 counterexample: at threshold 0 with two records of disjoint token sets,
the best similarity (0) reaches the threshold, so the claim says the second
record joins the first cluster; the code instead opens a second cluster,
because its join condition additionally requires a strictly positive best
similarity (best_i is not None). -/
theorem claim_C2_counterexample :
    cluster_titles [⟨"economy", ""⟩, ⟨"military", ""⟩] 0 ≠
      clusterTitlesSpec [⟨"economy", ""⟩, ⟨"military", ""⟩] 0 := by decide

/-- C2 amended: for every strictly positive similarity threshold the greedy
pass behaves exactly as the claim describes: records are processed in order,
a record with empty title tokens is skipped, and a record joins the existing
cluster of highest centroid Jaccard similarity (earliest on ties, by the
strict-greater scan) exactly when that best similarity reaches the threshold,
otherwise starting a new singleton cluster; token counts are incremented on a
join.  (At non-positive thresholds the code also requires the best similarity
to be positive.) -/
theorem claim_C2_amended (rows : List Row) (t : Rat) (ht : 0 < t) :
    cluster_titles rows t = clusterTitlesSpec rows t := by
  unfold cluster_titles clusterTitlesSpec preClusters
  have hf : clusterStep t = clusterStepSpec t :=
    funext fun cs => funext fun r => clusterStep_eq_spec ht cs r
  rw [hf]

/-- C2 witness: code and claim-side clustering agree at the default threshold
on a concrete record list. -/
theorem claim_C2_witness :
    cluster_titles [⟨"economy grew", ""⟩, ⟨"economy shrank", ""⟩] (mkRat 33 100) =
      clusterTitlesSpec [⟨"economy grew", ""⟩, ⟨"economy shrank", ""⟩] (mkRat 33 100) :=
  claim_C2_amended _ _ (by decide)

/-! ### Claim C7: the topic scan computes the earliest strict argmax -/

theorem topicScore_nil (words : List String) : topicScore [] words = 0 := by
  unfold topicScore
  induction words with
  | nil => rfl
  | cons w ws ih =>
    rw [List.map_cons, List.sum_cons, ih]
    rfl

theorem labelStep_fold_good (tf : List (String × Nat)) :
    ∀ (l processed : List (String × List String)) (acc : Option String × Nat),
      ((acc = (none, 0) ∧ ∀ p ∈ processed, topicScore tf p.2 = 0) ∨
       (∃ l₁ p l₂, processed = l₁ ++ p :: l₂ ∧ acc = (some p.1, topicScore tf p.2) ∧
         0 < topicScore tf p.2 ∧
         (∀ q ∈ l₁, topicScore tf q.2 < topicScore tf p.2) ∧
         (∀ q ∈ l₂, topicScore tf q.2 ≤ topicScore tf p.2))) →
      ((l.foldl (labelStep tf) acc = (none, 0) ∧
          ∀ p ∈ processed ++ l, topicScore tf p.2 = 0) ∨
       (∃ l₁ p l₂, processed ++ l = l₁ ++ p :: l₂ ∧
         l.foldl (labelStep tf) acc = (some p.1, topicScore tf p.2) ∧
         0 < topicScore tf p.2 ∧
         (∀ q ∈ l₁, topicScore tf q.2 < topicScore tf p.2) ∧
         (∀ q ∈ l₂, topicScore tf q.2 ≤ topicScore tf p.2))) := by
  intro l
  induction l with
  | nil =>
    intro processed acc h
    simpa using h
  | cons topic rest ih =>
    intro processed acc h
    show ((rest.foldl (labelStep tf) (labelStep tf acc topic) = (none, 0) ∧ _) ∨ _)
    have hassoc : processed ++ topic :: rest = (processed ++ [topic]) ++ rest := by simp
    rw [hassoc]
    apply ih (processed ++ [topic]) (labelStep tf acc topic)
    rcases h with ⟨hacc, hall⟩ | ⟨l₁, p, l₂, hproc, hacc, hpos, hlt, hle⟩
    · subst hacc
      unfold labelStep
      dsimp only
      by_cases hs : 0 < topicScore tf topic.2
      · rw [if_pos hs]
        right
        refine ⟨processed, topic, [], by simp, rfl, hs, ?_, by simp⟩
        intro q hq
        rw [hall q hq]
        exact hs
      · rw [if_neg hs]
        left
        refine ⟨rfl, ?_⟩
        intro p hp
        rcases List.mem_append.mp hp with h1 | h2
        · exact hall p h1
        · simp at h2
          rw [h2]
          omega
    · subst hacc
      unfold labelStep
      dsimp only
      by_cases hs : topicScore tf p.2 < topicScore tf topic.2
      · rw [if_pos hs]
        right
        refine ⟨processed, topic, [], by simp, rfl, by omega, ?_, by simp⟩
        intro q hq
        rw [hproc] at hq
        rcases List.mem_append.mp hq with h1 | h2
        · exact lt_trans (hlt q h1) hs
        · rcases List.mem_cons.mp h2 with h3 | h4
          · rw [h3]; exact hs
          · exact lt_of_le_of_lt (hle q h4) hs
      · rw [if_neg hs]
        right
        refine ⟨l₁, p, l₂ ++ [topic], ?_, rfl, hpos, hlt, ?_⟩
        · rw [hproc]
          simp
        · intro q hq
          rcases List.mem_append.mp hq with h1 | h2
          · exact hle q h1
          · simp at h2
            rw [h2]
            omega

theorem label_cases (c : Cluster) :
    (label_cluster c = "Other" ∧ ∀ p ∈ TOPIC_LEXICON, topicScore c.tok_counts p.2 = 0) ∨
    (∃ l₁ p l₂, TOPIC_LEXICON = l₁ ++ p :: l₂ ∧ label_cluster c = p.1 ∧
      0 < topicScore c.tok_counts p.2 ∧
      (∀ q ∈ l₁, topicScore c.tok_counts q.2 < topicScore c.tok_counts p.2) ∧
      (∀ q ∈ l₂, topicScore c.tok_counts q.2 ≤ topicScore c.tok_counts p.2)) := by
  have hG := labelStep_fold_good c.tok_counts TOPIC_LEXICON [] (none, 0)
    (Or.inl ⟨rfl, by simp⟩)
  rcases hG with ⟨hfold, hall⟩ | ⟨l₁, p, l₂, hproc, hfold, hpos, hlt, hle⟩
  · left
    constructor
    · unfold label_cluster
      rw [hfold]
      rfl
    · simpa using hall
  · right
    refine ⟨l₁, p, l₂, by simpa using hproc, ?_, hpos, hlt, hle⟩
    unfold label_cluster
    rw [hfold]
    rfl

theorem topic_names_ne_other : ∀ p ∈ TOPIC_LEXICON, p.1 ≠ "Other" := by decide

/-- C7: label_cluster scores each topic of the fixed ordered table as the sum
of the counts of its marker words and returns the topic of strictly highest
score, earlier topics winning ties; it returns "Other" exactly when the best
score is 0, and in particular on an empty token-frequency map. -/
theorem claim_C7_label (c : Cluster) :
    (label_cluster c = "Other" ↔ ∀ p ∈ TOPIC_LEXICON, topicScore c.tok_counts p.2 = 0) ∧
    (label_cluster c ≠ "Other" →
      ∃ l₁ p l₂, TOPIC_LEXICON = l₁ ++ p :: l₂ ∧ label_cluster c = p.1 ∧
        0 < topicScore c.tok_counts p.2 ∧
        (∀ q ∈ l₁, topicScore c.tok_counts q.2 < topicScore c.tok_counts p.2) ∧
        (∀ q ∈ l₂, topicScore c.tok_counts q.2 ≤ topicScore c.tok_counts p.2)) ∧
    (∀ rows : List Row, label_cluster ⟨rows, []⟩ = "Other") := by
  refine ⟨⟨?_, ?_⟩, ?_, ?_⟩
  · intro hother
    rcases label_cases c with ⟨_, hall⟩ | ⟨l₁, p, l₂, hproc, hlab, hpos, _, _⟩
    · exact hall
    · exfalso
      apply topic_names_ne_other p
      · rw [hproc]
        exact List.mem_append_right _ (List.mem_cons_self _ _)
      · rw [← hlab]
        exact hother
  · intro hall
    rcases label_cases c with ⟨hother, _⟩ | ⟨l₁, p, l₂, hproc, _, hpos, _, _⟩
    · exact hother
    · exfalso
      have : topicScore c.tok_counts p.2 = 0 := by
        apply hall
        rw [hproc]
        exact List.mem_append_right _ (List.mem_cons_self _ _)
      omega
  · intro hne
    rcases label_cases c with ⟨hother, _⟩ | hR
    · exact absurd hother hne
    · exact hR
  · intro rows
    rcases label_cases ⟨rows, []⟩ with ⟨hother, _⟩ | ⟨l₁, p, l₂, _, _, hpos, _, _⟩
    · exact hother
    · exfalso
      rw [show (Cluster.mk rows []).tok_counts = [] from rfl, topicScore_nil] at hpos
      omega

/-- C7 witness: a token-frequency map holding only the marker word "war"
labels as geopolitics, with the earliest-argmax decomposition. -/
theorem claim_C7_witness :
    ∃ l₁ p l₂, TOPIC_LEXICON = l₁ ++ p :: l₂ ∧
      label_cluster ⟨[], [("war", 3)]⟩ = p.1 ∧
      0 < topicScore (Cluster.mk [] [("war", 3)]).tok_counts p.2 ∧
      (∀ q ∈ l₁, topicScore (Cluster.mk [] [("war", 3)]).tok_counts q.2 <
        topicScore (Cluster.mk [] [("war", 3)]).tok_counts p.2) ∧
      (∀ q ∈ l₂, topicScore (Cluster.mk [] [("war", 3)]).tok_counts q.2 ≤
        topicScore (Cluster.mk [] [("war", 3)]).tok_counts p.2) :=
  (claim_C7_label ⟨[], [("war", 3)]⟩).2.1 (by decide)

/-! ### Claim C3: clustering invariants -/

theorem bestStep_fold_counter (tks : List String) :
    ∀ (cs : List Cluster) (acc : Option Nat × Rat × Nat),
      (cs.foldl (bestStep tks) acc).2.2 = acc.2.2 + cs.length := by
  intro cs
  induction cs with
  | nil => intro acc; simp
  | cons c rest ih =>
    intro acc
    show (rest.foldl (bestStep tks) (bestStep tks acc c)).2.2 = _
    rw [ih]
    have hstep : (bestStep tks acc c).2.2 = acc.2.2 + 1 := by
      unfold bestStep
      dsimp only
      split <;> rfl
    rw [hstep]
    simp
    omega

theorem bestMatch_some_lt {tks : List String} {cs : List Cluster} {i : Nat}
    (h : (bestMatch tks cs).1 = some i) : i < cs.length := by
  unfold bestMatch at h
  dsimp only at h
  have hinv := (bestStep_fold_inv tks cs (none, 0, 0) (fun _ => rfl)
    (fun j hj => by cases hj)).2 i h
  have hcnt := bestStep_fold_counter tks cs (none, 0, 0)
  rw [hcnt] at hinv
  simpa using hinv

theorem growAt_flatten_perm :
    ∀ (cs : List Cluster) (i : Nat), i < cs.length → ∀ (r : Row) (tks : List String),
      List.Perm (((growAt cs i r tks).map (fun c => c.rows)).flatten)
        (r :: ((cs.map (fun c => c.rows)).flatten)) := by
  intro cs
  induction cs with
  | nil => intro i hi; simp at hi
  | cons c rest ih =>
    intro i hi r tks
    cases i with
    | zero =>
      show List.Perm (((grow c r tks :: rest).map (fun c => c.rows)).flatten) _
      rw [List.map_cons, List.flatten_cons, List.map_cons, List.flatten_cons]
      show List.Perm ((c.rows ++ [r]) ++ _) _
      refine ((List.perm_append_singleton r c.rows).append_right _).trans ?_
      show List.Perm (r :: (c.rows ++ _)) _
      exact List.Perm.refl _
    | succ n =>
      show List.Perm (((c :: growAt rest n r tks).map (fun c => c.rows)).flatten) _
      rw [List.map_cons, List.flatten_cons, List.map_cons, List.flatten_cons]
      have hp := ih n (by simp at hi; omega) r tks
      refine (hp.append_left c.rows).trans ?_
      exact List.perm_middle

theorem growAt_mem : ∀ (cs : List Cluster) (i : Nat) (r : Row) (tks : List String),
    ∀ c ∈ growAt cs i r tks, c ∈ cs ∨ ∃ d ∈ cs, c = grow d r tks := by
  intro cs
  induction cs with
  | nil => intro i r tks c hc; cases hc
  | cons d rest ih =>
    intro i r tks c hc
    cases i with
    | zero =>
      rcases List.mem_cons.mp hc with h1 | h2
      · exact Or.inr ⟨d, List.mem_cons_self _ _, h1⟩
      · exact Or.inl (List.mem_cons_of_mem _ h2)
    | succ n =>
      rcases List.mem_cons.mp hc with h1 | h2
      · exact Or.inl (h1 ▸ List.mem_cons_self _ _)
      · rcases ih n r tks c h2 with h3 | ⟨e, he, hce⟩
        · exact Or.inl (List.mem_cons_of_mem _ h3)
        · exact Or.inr ⟨e, List.mem_cons_of_mem _ he, hce⟩

theorem clusterStep_cases (t : Rat) (cs : List Cluster) {r : Row}
    (h : tokenize r.title ≠ []) :
    (∃ i, i < cs.length ∧
      clusterStep t cs r = growAt cs i r (tokenize (pyStrip r.title))) ∨
    clusterStep t cs r = cs ++ [⟨[r], updateCounts [] (tokenize (pyStrip r.title))⟩] := by
  have htks : tokenize (pyStrip r.title) = tokenize r.title := tokenize_pyStrip r.title
  have h1 : (pyStrip r.title).data.isEmpty = false := by
    cases hb : (pyStrip r.title).data with
    | nil =>
      exfalso
      apply h
      rw [← htks]
      show tokenize ⟨(pyStrip r.title).data⟩ = []
      rw [hb]
      rfl
    | cons a l => rfl
  have h2 : (tokenize (pyStrip r.title)).isEmpty = false := by
    rw [htks]
    cases htt : tokenize r.title with
    | nil => exact absurd htt h
    | cons a l => rfl
  unfold clusterStep
  dsimp only
  rw [if_neg (by rw [h1]; simp), if_neg (by rw [h2]; simp)]
  by_cases hcond : ((bestMatch (tokenize (pyStrip r.title)) cs).1.isSome &&
      decide (t ≤ (bestMatch (tokenize (pyStrip r.title)) cs).2)) = true
  · left
    have hsome : (bestMatch (tokenize (pyStrip r.title)) cs).1.isSome = true := by
      have h' := hcond
      simp only [Bool.and_eq_true] at h'
      exact h'.1
    obtain ⟨i, hi⟩ := Option.isSome_iff_exists.mp hsome
    refine ⟨i, bestMatch_some_lt hi, ?_⟩
    rw [if_pos hcond, hi]
    rfl
  · right
    rw [if_neg hcond]

theorem foldl_flatten_perm (t : Rat) :
    ∀ (rows : List Row) (cs : List Cluster),
      List.Perm (((rows.foldl (clusterStep t) cs).map (fun c => c.rows)).flatten)
        ((cs.map (fun c => c.rows)).flatten ++
          rows.filter (fun r => !(tokenize r.title).isEmpty)) := by
  intro rows
  induction rows with
  | nil => intro cs; simp
  | cons r rest ih =>
    intro cs
    show List.Perm (((rest.foldl (clusterStep t) (clusterStep t cs r)).map
      (fun c => c.rows)).flatten) _
    by_cases hr : tokenize r.title = []
    · rw [clusterStep_skip hr]
      have hfilter : (r :: rest).filter (fun r => !(tokenize r.title).isEmpty) =
          rest.filter (fun r => !(tokenize r.title).isEmpty) := by
        rw [List.filter_cons]
        simp [hr]
      rw [hfilter]
      exact ih cs
    · have hpred : ((tokenize r.title).isEmpty) = false := by
        cases htt : tokenize r.title with
        | nil => exact absurd htt hr
        | cons a l => rfl
      have hfilter : (r :: rest).filter (fun r => !(tokenize r.title).isEmpty) =
          r :: rest.filter (fun r => !(tokenize r.title).isEmpty) := by
        rw [List.filter_cons]
        simp [hpred]
      rw [hfilter]
      rcases clusterStep_cases t cs hr with ⟨i, hi, heq⟩ | heq
      · rw [heq]
        refine (ih _).trans ?_
        refine ((growAt_flatten_perm cs i hi r _).append_right _).trans ?_
        show List.Perm (r :: ((cs.map (fun c => c.rows)).flatten ++ _)) _
        exact List.perm_middle.symm
      · rw [heq]
        refine (ih _).trans ?_
        rw [List.map_append, List.flatten_append]
        show List.Perm (((cs.map (fun c => c.rows)).flatten ++ ([r] ++ [])) ++ _) _
        rw [List.append_nil, List.append_assoc]
        exact List.Perm.refl _

theorem foldl_cluster_nonempty (t : Rat) :
    ∀ (rows : List Row) (cs : List Cluster), (∀ c ∈ cs, c.rows ≠ []) →
      ∀ c ∈ rows.foldl (clusterStep t) cs, c.rows ≠ [] := by
  intro rows
  induction rows with
  | nil => intro cs h; exact h
  | cons r rest ih =>
    intro cs h
    show ∀ c ∈ rest.foldl (clusterStep t) (clusterStep t cs r), c.rows ≠ []
    apply ih
    by_cases hr : tokenize r.title = []
    · rw [clusterStep_skip hr]
      exact h
    · rcases clusterStep_cases t cs hr with ⟨i, hi, heq⟩ | heq
      · rw [heq]
        intro c hc
        rcases growAt_mem cs i r _ c hc with h1 | ⟨d, hd, hcd⟩
        · exact h c h1
        · rw [hcd]
          show d.rows ++ [r] ≠ []
          simp
      · rw [heq]
        intro c hc
        rcases List.mem_append.mp hc with h1 | h2
        · exact h c h1
        · simp at h2
          rw [h2]
          simp

theorem insSorted_perm {α : Type} (le : α → α → Bool) (p : α) :
    ∀ l, List.Perm (insSorted le p l) (p :: l) := by
  intro l
  induction l with
  | nil => exact List.Perm.refl _
  | cons q rest ih =>
    unfold insSorted
    by_cases hle : le p q
    · rw [if_pos hle]
    · rw [if_neg hle]
      exact (ih.cons q).trans (List.Perm.swap p q rest)

theorem insSort_perm {α : Type} (le : α → α → Bool) :
    ∀ l, List.Perm (insSort le l) l := by
  intro l
  induction l with
  | nil => exact List.Perm.refl _
  | cons p rest ih =>
    show List.Perm (insSorted le p (insSort le rest)) _
    exact (insSorted_perm le p _).trans (ih.cons p)

theorem insSorted_pairwise {α : Type} {le : α → α → Bool} {R : α → α → Prop}
    (hyes : ∀ a b, le a b = true → R a b) (hno : ∀ a b, le a b = false → R b a)
    (htrans : ∀ a b c, R a b → R b c → R a c) (p : α) :
    ∀ l, l.Pairwise R → (insSorted le p l).Pairwise R := by
  intro l
  induction l with
  | nil =>
    intro _
    exact List.pairwise_cons.mpr ⟨fun x hx => absurd hx (List.not_mem_nil x), List.Pairwise.nil⟩
  | cons q rest ih =>
    intro hl
    rcases List.pairwise_cons.mp hl with ⟨hq, hrest⟩
    unfold insSorted
    by_cases hle : le p q
    · rw [if_pos hle]
      refine List.pairwise_cons.mpr ⟨?_, hl⟩
      intro x hx
      rcases List.mem_cons.mp hx with h1 | h2
      · rw [h1]
        exact hyes p q hle
      · exact htrans p q x (hyes p q hle) (hq x h2)
    · rw [if_neg hle]
      refine List.pairwise_cons.mpr ⟨?_, ih hrest⟩
      intro x hx
      rcases List.mem_cons.mp ((insSorted_perm le p rest).mem_iff.mp hx) with h1 | h2
      · rw [h1]
        exact hno p q (eq_false_of_ne_true hle)
      · exact hq x h2

theorem insSort_pairwise {α : Type} {le : α → α → Bool} {R : α → α → Prop}
    (hyes : ∀ a b, le a b = true → R a b) (hno : ∀ a b, le a b = false → R b a)
    (htrans : ∀ a b c, R a b → R b c → R a c) :
    ∀ l : List α, (insSort le l).Pairwise R := by
  intro l
  induction l with
  | nil => exact List.Pairwise.nil
  | cons p rest ih =>
    show (insSorted le p (insSort le rest)).Pairwise R
    exact insSorted_pairwise hyes hno htrans p _ ih

theorem insSorted_decomp {α : Type} (le : α → α → Bool) (p : α) :
    ∀ l, ∃ l₁ l₂, l = l₁ ++ l₂ ∧ insSorted le p l = l₁ ++ p :: l₂ ∧
      ∀ q ∈ l₁, le p q = false := by
  intro l
  induction l with
  | nil => exact ⟨[], [], rfl, rfl, by intro q hq; cases hq⟩
  | cons q rest ih =>
    unfold insSorted
    by_cases hle : le p q
    · rw [if_pos hle]
      exact ⟨[], q :: rest, rfl, rfl, by intro x hx; cases hx⟩
    · rw [if_neg hle]
      obtain ⟨l₁, l₂, h1, h2, h3⟩ := ih
      refine ⟨q :: l₁, l₂, by rw [List.cons_append, ← h1], by rw [h2]; rfl, ?_⟩
      intro x hx
      rcases List.mem_cons.mp hx with hx1 | hx2
      · rw [hx1]
        exact eq_false_of_ne_true hle
      · exact h3 x hx2

theorem insSort_filter_len (k : Nat) :
    ∀ l : List Cluster,
      (insSort clusterLe l).filter (fun c => c.rows.length = k) =
        l.filter (fun c => c.rows.length = k) := by
  intro l
  induction l with
  | nil => rfl
  | cons p rest ih =>
    show (insSorted clusterLe p (insSort clusterLe rest)).filter _ = _
    obtain ⟨l₁, l₂, hsplit, hins, hl₁⟩ := insSorted_decomp clusterLe p (insSort clusterLe rest)
    have hrest : l₁.filter (fun c => decide (c.rows.length = k)) ++
        l₂.filter (fun c => decide (c.rows.length = k)) =
        rest.filter (fun c => decide (c.rows.length = k)) := by
      rw [← List.filter_append, ← hsplit]
      exact ih
    rw [hins, List.filter_append, List.filter_cons, List.filter_cons]
    by_cases hk : p.rows.length = k
    · have hfl₁ : l₁.filter (fun c => decide (c.rows.length = k)) = [] := by
        rw [List.filter_eq_nil_iff]
        intro q hq
        have hfalse := hl₁ q hq
        unfold clusterLe at hfalse
        have hlt := of_decide_eq_false hfalse
        simp
        omega
      have hpk : decide (p.rows.length = k) = true := decide_eq_true hk
      rw [hfl₁] at hrest
      simp only [List.nil_append] at hrest
      rw [hpk, hfl₁]
      simp [hrest]
    · have hkb : decide (p.rows.length = k) = false := decide_eq_false hk
      rw [hkb]
      rw [if_neg Bool.false_ne_true, if_neg Bool.false_ne_true]
      exact hrest

/-- C3: after cluster_titles, the concatenation of cluster member lists is a
permutation of the records whose titles tokenize to something (so each such
record sits in exactly one cluster and the member counts add up to their
number); no cluster is empty; untokenizable-title records are in no cluster;
and the final list is sorted by descending member count, a stable sort with
respect to the creation order of clusters. -/
theorem claim_C3_invariants (rows : List Row) (t : Rat) :
    List.Perm (((cluster_titles rows t).map (fun c => c.rows)).flatten)
        (rows.filter (fun r => !(tokenize r.title).isEmpty)) ∧
    ((cluster_titles rows t).map (fun c => c.rows.length)).sum =
        (rows.filter (fun r => !(tokenize r.title).isEmpty)).length ∧
    (∀ c ∈ cluster_titles rows t, c.rows ≠ []) ∧
    (∀ r : Row, tokenize r.title = [] → ∀ c ∈ cluster_titles rows t, r ∉ c.rows) ∧
    (cluster_titles rows t).Pairwise (fun c d => d.rows.length ≤ c.rows.length) ∧
    (∀ k, (cluster_titles rows t).filter (fun c => c.rows.length = k) =
        (preClusters rows t).filter (fun c => c.rows.length = k)) := by
  have hperm : List.Perm (((cluster_titles rows t).map (fun c => c.rows)).flatten)
      (rows.filter (fun r => !(tokenize r.title).isEmpty)) := by
    unfold cluster_titles
    refine (((insSort_perm clusterLe (preClusters rows t)).map _).flatten).trans ?_
    have := foldl_flatten_perm t rows []
    simpa using this
  refine ⟨hperm, ?_, ?_, ?_, ?_, ?_⟩
  · have hlen := hperm.length_eq
    rw [List.length_flatten, List.map_map] at hlen
    exact hlen
  · intro c hc
    have hc' : c ∈ preClusters rows t :=
      (insSort_perm clusterLe (preClusters rows t)).mem_iff.mp hc
    exact foldl_cluster_nonempty t rows [] (by intro x hx; cases hx) c hc'
  · intro r hr c hc hrc
    have hmem : r ∈ ((cluster_titles rows t).map (fun c => c.rows)).flatten :=
      List.mem_flatten.mpr ⟨c.rows, List.mem_map.mpr ⟨c, hc, rfl⟩, hrc⟩
    have := hperm.mem_iff.mp hmem
    have hkeep := List.of_mem_filter this
    rw [hr] at hkeep
    simp at hkeep
  · unfold cluster_titles
    apply insSort_pairwise
    · intro a b hab
      unfold clusterLe at hab
      exact of_decide_eq_true hab
    · intro a b hab
      unfold clusterLe at hab
      have := of_decide_eq_false hab
      omega
    · intro a b c h1 h2
      omega
  · intro k
    exact insSort_filter_len k (preClusters rows t)

/-- C3 witness: the permutation invariant applied at concrete records and the
exclusion of an untokenizable record at a concrete cluster. -/
theorem claim_C3_witness :
    (⟨"", ""⟩ : Row) ∉
      (Cluster.mk [⟨"economy grew", ""⟩] [("economy", 1), ("grew", 1)]).rows :=
  (claim_C3_invariants [⟨"economy grew", ""⟩] (mkRat 1 2)).2.2.2.1 ⟨"", ""⟩ (by decide)
    ⟨[⟨"economy grew", ""⟩], [("economy", 1), ("grew", 1)]⟩ (by decide)

end Briefing
